import Mathlib

/-!
The scanner and the node algebra of `parser.go` (googlish-query-parser).

A shallow embedding of package `gparser`.  A Go `string` is a Lean `String`, and
`[]rune(s)` is `s.toList`; the `bytes.Buffer` called `token` is the list of runes
written to it so far, and `token.String()` is `String.mk token`.  The debugging call
`fmt.Println(node)` of the colon branch writes to standard output only and is left out.
-/

namespace gparser

/-- Constants `Empty .. Key` of `type NodeType int`. -/
inductive NodeType where
  | Empty
  | Value
  | CompleteMatch
  | And
  | Or
  | Key
  deriving DecidableEq, Repr

/-- The six implementations of the `Node` interface.  `Right` of `AndNode` and `OrNode`
is an interface value that the scanner leaves `nil` while an operand is awaited, hence
`Option`; `Left` and `KeyNode.Value` are always built from a node at hand. -/
inductive Node where
  | EmptyNode
  | ValueNode (Value : String)
  | CompleteMatchNode (Value : String)
  | AndNode (Left : Node) (Right : Option Node)
  | OrNode (Left : Node) (Right : Option Node)
  | KeyNode (Key : String) (Value : Node)
  deriving Repr

/-- Go's `error` interface value; `nil` is `none` of `Option GoError`. -/
structure GoError where
  msg : String
  deriving DecidableEq, Repr

/-- Method `Type()` of each node kind. -/
def Node.Type : Node → NodeType
  | .EmptyNode => .Empty
  | .ValueNode _ => .Value
  | .CompleteMatchNode _ => .CompleteMatch
  | .AndNode _ _ => .And
  | .OrNode _ _ => .Or
  | .KeyNode _ _ => .Key

/-- Method `Apply(node)` of each node kind (`parser.go` lines 165, 189, 220, 244, 279, 301).
The receivers of `AndNode`, `OrNode` and `KeyNode` are updated in place and returned; every
node is referenced from one place only, so the update is the new value. -/
def Node.Apply : Node → Node → Node
  | .EmptyNode, node => node
  | .ValueNode v, node => .AndNode (.ValueNode v) (some node)
  | .CompleteMatchNode v, node => .AndNode (.CompleteMatchNode v) (some node)
  | .AndNode l (some r), node => .AndNode (.AndNode l (some r)) (some node)
  | .AndNode l none, node => .AndNode l (some node)
  | .OrNode l _, node => .OrNode l (some node)
  | .KeyNode k _, node => .KeyNode k node

/-- Function `isOperand`. -/
def isOperand (node : Node) : Bool :=
  node.Type = .And || node.Type = .Or || node.Type = .Key

/-- Function `isBlank`. -/
def isBlank (r : Char) : Bool := r = ' '

/-- Go's `unicode.IsSpace`: the code points with the Unicode White_Space property. -/
def isSpace (c : Char) : Bool :=
  let n := c.toNat
  (9 ≤ n && n ≤ 13) || n = 0x20 || n = 0x85 || n = 0xA0 || n = 0x1680 ||
  (0x2000 ≤ n && n ≤ 0x200A) || n = 0x2028 || n = 0x2029 || n = 0x202F ||
  n = 0x205F || n = 0x3000

/-- Go's `strings.TrimSpace` on the runes of a string: leading and trailing white space
removed. -/
def TrimSpace (runes : List Char) : List Char :=
  ((runes.dropWhile isSpace).reverse.dropWhile isSpace).reverse

/-- The loop of closure `grouped` of `readUntilFinishLevel`: `rest` is `runes[i:]`. -/
def groupedLoop (runes : List Char) : List Char → Nat → Int → String × Nat
  | [], _, _ => ("", 0)
  | r :: rest, i, level =>
    if r = '(' then groupedLoop runes rest (i + 1) (level + 1)
    else if r = ')' then
      let level := level - 1
      if level < 0 then (String.mk ((runes.take (i - 1)).drop 1), i)
      else groupedLoop runes rest (i + 1) level
    else groupedLoop runes rest (i + 1) level

/-- The loop of closure `others` of `readUntilFinishLevel`: `rest` is `runes[i:]`. -/
def othersLoop (runes : List Char) : List Char → Nat → String × Nat
  | [], _ => ("", 0)
  | r :: rest, i =>
    if r = ' ' ∨ r = ')' then (String.mk (runes.take i), i + 1)
    else othersLoop runes rest (i + 1)

/-- Function `readUntilFinishLevel` on the runes of its argument. -/
def readUntilFinishLevel (query : List Char) : String × Nat :=
  match query with
  | '(' :: _ => groupedLoop query query 0 0
  | _ => othersLoop query query 0

/-- The length of the value text returned by `readUntilFinishLevel` never exceeds the
length of its argument: both closures return a slice of `runes`. -/
theorem groupedLoop_length (runes : List Char) (rest : List Char) (i : Nat) (level : Int) :
    (groupedLoop runes rest i level).1.length ≤ runes.length := by
  induction rest generalizing i level with
  | nil => simp [groupedLoop]
  | cons r rest ih =>
    unfold groupedLoop
    split
    · exact ih _ _
    · split
      · simp only
        split
        · simp only [String.length, List.length_drop, List.length_take]
          omega
        · exact ih _ _
      · exact ih _ _

theorem othersLoop_length (runes : List Char) (rest : List Char) (i : Nat) :
    (othersLoop runes rest i).1.length ≤ runes.length := by
  induction rest generalizing i with
  | nil => simp [othersLoop]
  | cons r rest ih =>
    unfold othersLoop
    split
    · simp only [String.length, List.length_take]
      omega
    · exact ih _

theorem readUntilFinishLevel_length (query : List Char) :
    (readUntilFinishLevel query).1.length ≤ query.length := by
  unfold readUntilFinishLevel
  split
  · exact groupedLoop_length _ _ _ _
  · exact othersLoop_length _ _ _

/-- The `for` loop of `Parse`, one rune of `rest = runes[i:]` per step.  `rec` is `Parse`
itself, available on strings shorter than `n`; the bound `token.length + rest.length ≤ n`
is what makes every recursive call legal.  The jump `i = i + n` of the colon branch is the
counter `skip`: that many runes are passed over before scanning resumes.  The result is
`current` and the contents of `token` when the loop ends. -/
def scan (n : Nat) (rec : (s : String) → s.length < n → Node × Option GoError) :
    (skip : Nat) → (rest : List Char) → (current : Node) → (token : List Char) →
    (hasQuota : Bool) → (parenthesesLevel : Int) →
    token.length + rest.length ≤ n → Node × List Char
  | _, [], current, token, _, _, _ => (current, token)
  | skip + 1, _ :: rest, current, token, hasQuota, parenthesesLevel, h =>
    scan n rec skip rest current token hasQuota parenthesesLevel
      (by simp only [List.length_cons] at h; omega)
  | 0, r :: rest, current, token, hasQuota, parenthesesLevel, h =>
    have hr : (token ++ [r]).length + rest.length ≤ n := by
      simp only [List.length_cons, List.length_append, List.length_nil] at h ⊢; omega
    have h0 : ([] : List Char).length + rest.length ≤ n := by
      simp only [List.length_cons, List.length_nil] at h ⊢; omega
    have ht : (String.mk token).length < n := by
      simp only [List.length_cons, String.length] at h ⊢; omega
    if r = ' ' then
      if parenthesesLevel > 0 then
        scan n rec 0 rest current (token ++ [r]) hasQuota parenthesesLevel hr
      else if hasQuota then
        scan n rec 0 rest current (token ++ [r]) hasQuota parenthesesLevel hr
      else if String.mk token = "or" then
        scan n rec 0 rest (.OrNode current none) [] hasQuota parenthesesLevel h0
      else if String.mk token = "and" then
        scan n rec 0 rest (.AndNode current none) [] hasQuota parenthesesLevel h0
      else
        let current :=
          if !isOperand current && current.Type ≠ .Empty then .AndNode current none
          else current
        let node := (rec (String.mk token) ht).1
        scan n rec 0 rest (current.Apply node) [] hasQuota parenthesesLevel h0
    else if r = '"' then
      if parenthesesLevel > 0 then
        scan n rec 0 rest current (token ++ [r]) hasQuota parenthesesLevel hr
      else if !hasQuota then
        scan n rec 0 rest current token true parenthesesLevel
          (by simp only [List.length_cons] at h; omega)
      else
        scan n rec 0 rest (current.Apply (.CompleteMatchNode (String.mk token))) [] false
          parenthesesLevel h0
    else if r = ':' then
      if parenthesesLevel > 0 then
        scan n rec 0 rest current (token ++ [r]) hasQuota parenthesesLevel hr
      else
        let qn := readUntilFinishLevel rest
        let node := (rec qn.1
          (by show (readUntilFinishLevel rest).1.length < n
              have := readUntilFinishLevel_length rest
              simp only [List.length_cons] at h; omega)).1
        scan n rec qn.2 rest (current.Apply (.KeyNode (String.mk token) node)) []
          hasQuota parenthesesLevel h0
    else if r = '(' then
      if parenthesesLevel > 0 then
        scan n rec 0 rest current (token ++ [r]) hasQuota (parenthesesLevel + 1) hr
      else
        scan n rec 0 rest current token hasQuota (parenthesesLevel + 1)
          (by simp only [List.length_cons] at h; omega)
    else if r = ')' then
      if parenthesesLevel - 1 = 0 then
        let node := (rec (String.mk token) ht).1
        scan n rec 0 rest (current.Apply node) [] hasQuota (parenthesesLevel - 1) h0
      else
        scan n rec 0 rest current (token ++ [r]) hasQuota (parenthesesLevel - 1) hr
    else
      scan n rec 0 rest current (token ++ [r]) hasQuota parenthesesLevel hr

theorem TrimSpace_length (runes : List Char) : (TrimSpace runes).length ≤ runes.length := by
  unfold TrimSpace
  rw [List.length_reverse]
  refine le_trans (List.Sublist.length_le (List.dropWhile_sublist _)) ?_
  rw [List.length_reverse]
  exact List.Sublist.length_le (List.dropWhile_sublist _)

/-- Function `Parse` on queries shorter than `n`, by recursion on `n`: the body of `Parse`
with the recursive calls made at the smaller bound. -/
def ParseBelow : (n : Nat) → (query : String) → query.length < n → Node × Option GoError
  | 0, _, h => absurd h (Nat.not_lt_zero _)
  | n + 1, query, h =>
    let runes := TrimSpace query.toList
    let out := scan n (ParseBelow n) 0 runes .EmptyNode [] false 0
      (by show ([] : List Char).length + (TrimSpace query.toList).length ≤ n
          have := TrimSpace_length query.toList
          simp only [String.length, String.toList, List.length_nil] at *; omega)
    let current := out.1
    let token := out.2
    if token.length > 0 then (current.Apply (.ValueNode (String.mk token)), none)
    else (current, none)

/-- Function `Parse`. -/
def Parse (query : String) : Node × Option GoError :=
  ParseBelow (query.length + 1) query (Nat.lt_succ_self _)

/-- A rune that each branch of the loop of `Parse` treats as text: none of the five
runes the `switch` names. -/
def Ordinary (c : Char) : Prop := c ≠ ' ' ∧ c ≠ '"' ∧ c ≠ ':' ∧ c ≠ '(' ∧ c ≠ ')'

instance (c : Char) : Decidable (Ordinary c) := by unfold Ordinary; infer_instance

/-- A plain word: not empty, no white space, no double quote, colon or parenthesis. -/
def PlainWord (w : String) : Prop :=
  w.toList ≠ [] ∧ ∀ c ∈ w.toList, isSpace c = false ∧ c ≠ '"' ∧ c ≠ ':' ∧ c ≠ '(' ∧ c ≠ ')'

instance (w : String) : Decidable (PlainWord w) := by unfold PlainWord; infer_instance

/-- A phrase that can stand between two double quotes: no double quote, colon or
parenthesis; spaces are allowed, and so is the empty text. -/
def PlainPhrase (p : String) : Prop :=
  ∀ c ∈ p.toList, c ≠ '"' ∧ c ≠ ':' ∧ c ≠ '(' ∧ c ≠ ')'

instance (p : String) : Decidable (PlainPhrase p) := by unfold PlainPhrase; infer_instance

/-- The word is neither of the two operator keywords. -/
def NotKeyword (w : String) : Prop := w ≠ "and" ∧ w ≠ "or"

instance (w : String) : Decidable (NotKeyword w) := by unfold NotKeyword; infer_instance

/-- The last term of a chain of terms: a plain word, or a phrase between double quotes. -/
inductive Term where
  | word (w : String)
  | phrase (p : String)

/-- The term as it is written in a query. -/
def Term.text : Term → String
  | .word w => w
  | .phrase p => "\"" ++ p ++ "\""

/-- The node a term stands for. -/
def Term.node : Term → Node
  | .word w => .ValueNode w
  | .phrase p => .CompleteMatchNode p

/-- The side conditions on a last term: a plain word that is no keyword, or a phrase
without double quote, colon and parentheses. -/
def Term.WellFormed : Term → Prop
  | .word w => PlainWord w ∧ NotKeyword w
  | .phrase p => PlainPhrase p

instance (t : Term) : Decidable t.WellFormed := by
  cases t <;> unfold Term.WellFormed <;> infer_instance

/-- The two ways to write a conjunction between two terms: one space, or the keyword. -/
def andSep (explicit : Bool) : String := if explicit then " and " else " "

/-- The text of the words that follow the first one, each with the separator before
it. -/
def andChainText : List (Bool × String) → String
  | [] => ""
  | m :: ms => andSep m.1 ++ m.2 ++ andChainText ms

/-- The left-nested conjunction of `first` and the words that follow. -/
def andChainTree (first : Node) (mids : List (Bool × String)) : Node :=
  mids.foldl (fun acc m => .AndNode acc (some (.ValueNode m.2))) first

/-- The text of the words that follow the first one, each after the keyword "or". -/
def orChainText : List String → String
  | [] => ""
  | w :: ws => " or " ++ w ++ orChainText ws

/-- The left-nested disjunction of `first` and the words that follow. -/
def orChainTree (first : Node) (ws : List String) : Node :=
  ws.foldl (fun acc w => .OrNode acc (some (.ValueNode w))) first

/-- Balanced parentheses: no prefix of the text closes more groups than it opens, and the
whole text closes as many as it opens. -/
def Balanced (e : String) : Prop :=
  (∀ k ≤ e.length, (e.toList.take k).count ')' ≤ (e.toList.take k).count '(') ∧
    e.toList.count '(' = e.toList.count ')'

instance (e : String) : Decidable (Balanced e) := by unfold Balanced; infer_instance

/-- The query of test case "comprex query" (`parser_test.go` line 146). -/
def canonicalQuery : String :=
  "foo and (key:value or (foobar and key2:\"value2\")) or key3:value3 FOO"

/-- The tree that test case "comprex query" expects (`parser_test.go` lines 149-173). -/
def canonicalExpected : Node :=
  .AndNode
    (.OrNode
      (.AndNode (.ValueNode "foo")
        (some (.OrNode (.KeyNode "key" (.ValueNode "value"))
          (some (.AndNode (.ValueNode "foobar")
            (some (.KeyNode "key2" (.CompleteMatchNode "value2"))))))))
      (some (.KeyNode "key3" (.ValueNode "value3"))))
    (some (.ValueNode "FOO"))

/-- The tree that `Parse` builds for the query of test case "comprex query". -/
def canonicalActual : Node :=
  .OrNode
    (.AndNode
      (.AndNode (.ValueNode "foo")
        (some (.OrNode (.KeyNode "key" (.ValueNode "value"))
          (some (.AndNode
            (.AndNode (.ValueNode "foobar") (some (.KeyNode "key2" .EmptyNode)))
            (some (.CompleteMatchNode "value2")))))))
      (some .EmptyNode))
    (some (.ValueNode "FOO"))

/-- The tree holds an `AndNode` or an `OrNode`, at some depth, whose `Right` is `nil`. -/
def Node.hasPending : Node → Bool
  | .EmptyNode => false
  | .ValueNode _ => false
  | .CompleteMatchNode _ => false
  | .AndNode l (some r) => l.hasPending || r.hasPending
  | .AndNode _ none => true
  | .OrNode l (some r) => l.hasPending || r.hasPending
  | .OrNode _ none => true
  | .KeyNode _ v => v.hasPending

/-- The tree holds a `KeyNode`, at some depth, whose `Value` is an `EmptyNode`. -/
def Node.hasEmptyKey : Node → Bool
  | .EmptyNode => false
  | .ValueNode _ => false
  | .CompleteMatchNode _ => false
  | .AndNode l (some r) => l.hasEmptyKey || r.hasEmptyKey
  | .AndNode l none => l.hasEmptyKey
  | .OrNode l (some r) => l.hasEmptyKey || r.hasEmptyKey
  | .OrNode l none => l.hasEmptyKey
  | .KeyNode _ .EmptyNode => true
  | .KeyNode _ v => v.hasEmptyKey

/-- The text of the words that follow the first one, each after one space. -/
def spaceChainText : List String → String
  | [] => ""
  | w :: ws => " " ++ w ++ spaceChainText ws

/-- No keyword of the list is directly followed by another keyword. -/
def noKeywordPair : List String → Bool
  | a :: b :: rest => (decide (NotKeyword a) || decide (NotKeyword b)) && noKeywordPair (b :: rest)
  | _ => true

/-- The state of `current` between two tokens: no right side is absent, or only the one
at the root is, left there by a keyword. -/
def TopOK (current : Node) : Prop :=
  current.hasPending = false ∨
    ∃ l, l.hasPending = false ∧ (current = .AndNode l none ∨ current = .OrNode l none)

/-- The index at which the loop of closure `grouped` executes its `return` inside the
loop, if it does: the loop of `groupedLoop` with the index in place of the result. -/
def groupedHit : List Char → Nat → Int → Option Nat
  | [], _, _ => none
  | r :: rest, i, level =>
    if r = '(' then groupedHit rest (i + 1) (level + 1)
    else if r = ')' then
      let level := level - 1
      if level < 0 then some i
      else groupedHit rest (i + 1) level
    else groupedHit rest (i + 1) level

/-- A term of a query: a word, a quoted phrase, a group, or a field whose value is a word,
a quoted phrase or a group.  The text of a group is kept as text. -/
inductive QTerm where
  | word (w : String)
  | phrase (p : String)
  | group (e : String)
  | field (k v : String)
  | fieldPhrase (k p : String)
  | fieldGroup (k e : String)

/-- The term as it is written in a query. -/
def QTerm.text : QTerm → String
  | .word w => w
  | .phrase p => "\"" ++ p ++ "\""
  | .group e => "(" ++ e ++ ")"
  | .field k v => k ++ ":" ++ v
  | .fieldPhrase k p => k ++ ":" ++ ("\"" ++ p ++ "\"")
  | .fieldGroup k e => k ++ ":" ++ ("(" ++ e ++ ")")

/-- The three ways to join two terms: juxtaposition, conjunction, disjunction. -/
inductive Sep where
  | space
  | and
  | or

/-- The separator as it is written in a query. -/
def Sep.text : Sep → String
  | .space => " "
  | .and => " and "
  | .or => " or "

/-- The text of the terms that follow the first one, each with its separator before
it. -/
def chainText : List (Sep × QTerm) → String
  | [] => ""
  | st :: rest => st.1.text ++ st.2.text ++ chainText rest

/-- The side conditions on a term, given which texts may stand inside a group: words are
plain and, when they stand alone, no keywords; phrases hold no double quote, colon or
parenthesis, and none that is the value of a field holds a space. -/
def QTerm.OK (inner : String → Prop) : QTerm → Prop
  | .word w => PlainWord w ∧ NotKeyword w
  | .phrase p => PlainPhrase p
  | .group e => inner e
  | .field k v => PlainWord k ∧ PlainWord v
  | .fieldPhrase k p => PlainWord k ∧ PlainPhrase p ∧ ' ' ∉ p.toList
  | .fieldGroup k e => PlainWord k ∧ inner e

/-- A well-formed query with groups nested fewer than `n` deep: terms joined by one space,
by " and " or by " or ", the text of every group being such a query again. -/
def WellFormed : Nat → String → Prop
  | 0, _ => False
  | n + 1, q => ∃ (first : QTerm) (rest : List (Sep × QTerm)),
      q = first.text ++ chainText rest ∧ first.OK (WellFormed n) ∧
        ∀ st ∈ rest, st.2.OK (WellFormed n)

/-- No prefix of the runes closes more groups than it opens. -/
def NoUnmatched (runes : List Char) : Prop :=
  ∀ k ≤ runes.length, (runes.take k).count ')' ≤ (runes.take k).count '('

/-- A text that may stand inside a group: its parentheses are balanced and the tree that
`Parse` returns for it holds no And node and no Or node whose right side is absent. -/
def SettledGroup (e : String) : Prop := Balanced e ∧ (Parse e).1.hasPending = false

/-- The state of the loop right after a term: nothing is pending and the buffer is empty,
or the buffer holds a word that is still to be applied. -/
def AfterTerm (current : Node) (token : List Char) : Prop :=
  (current.hasPending = false ∧ token = []) ∨
    (TopOK current ∧ ∃ w, PlainWord w ∧ NotKeyword w ∧ token = w.toList)

/-- The loop of `Parse` once more, with the recursive call as a plain function `P` and no
length bound: the form in which the loop is reasoned about (`scan_eq_scanWith`). -/
def scanWith (P : String → Node × Option GoError) :
    (skip : Nat) → (rest : List Char) → (current : Node) → (token : List Char) →
    (hasQuota : Bool) → (parenthesesLevel : Int) → Node × List Char
  | _, [], current, token, _, _ => (current, token)
  | skip + 1, _ :: rest, current, token, hasQuota, parenthesesLevel =>
    scanWith P skip rest current token hasQuota parenthesesLevel
  | 0, r :: rest, current, token, hasQuota, parenthesesLevel =>
    if r = ' ' then
      if parenthesesLevel > 0 then
        scanWith P 0 rest current (token ++ [r]) hasQuota parenthesesLevel
      else if hasQuota then
        scanWith P 0 rest current (token ++ [r]) hasQuota parenthesesLevel
      else if String.mk token = "or" then
        scanWith P 0 rest (.OrNode current none) [] hasQuota parenthesesLevel
      else if String.mk token = "and" then
        scanWith P 0 rest (.AndNode current none) [] hasQuota parenthesesLevel
      else
        let current :=
          if !isOperand current && current.Type ≠ .Empty then .AndNode current none
          else current
        let node := (P (String.mk token)).1
        scanWith P 0 rest (current.Apply node) [] hasQuota parenthesesLevel
    else if r = '"' then
      if parenthesesLevel > 0 then
        scanWith P 0 rest current (token ++ [r]) hasQuota parenthesesLevel
      else if !hasQuota then
        scanWith P 0 rest current token true parenthesesLevel
      else
        scanWith P 0 rest (current.Apply (.CompleteMatchNode (String.mk token))) [] false
          parenthesesLevel
    else if r = ':' then
      if parenthesesLevel > 0 then
        scanWith P 0 rest current (token ++ [r]) hasQuota parenthesesLevel
      else
        let qn := readUntilFinishLevel rest
        let node := (P qn.1).1
        scanWith P qn.2 rest (current.Apply (.KeyNode (String.mk token) node)) []
          hasQuota parenthesesLevel
    else if r = '(' then
      if parenthesesLevel > 0 then
        scanWith P 0 rest current (token ++ [r]) hasQuota (parenthesesLevel + 1)
      else
        scanWith P 0 rest current token hasQuota (parenthesesLevel + 1)
    else if r = ')' then
      if parenthesesLevel - 1 = 0 then
        let node := (P (String.mk token)).1
        scanWith P 0 rest (current.Apply node) [] hasQuota (parenthesesLevel - 1)
      else
        scanWith P 0 rest current (token ++ [r]) hasQuota (parenthesesLevel - 1)
    else
      scanWith P 0 rest current (token ++ [r]) hasQuota parenthesesLevel

/-- The end of `Parse`: a token left in the buffer becomes a `ValueNode`. -/
def flush (out : Node × List Char) : Node × Option GoError :=
  if out.2.length > 0 then (out.1.Apply (.ValueNode (String.mk out.2)), none)
  else (out.1, none)

theorem scan_eq_scanWith (n : Nat) (rec : (s : String) → s.length < n → Node × Option GoError)
    (P : String → Node × Option GoError) (hrec : ∀ s h, rec s h = P s) :
    ∀ (rest : List Char) (skip : Nat) (current : Node) (token : List Char) (hasQuota : Bool)
      (parenthesesLevel : Int) (h : token.length + rest.length ≤ n),
      scan n rec skip rest current token hasQuota parenthesesLevel h =
        scanWith P skip rest current token hasQuota parenthesesLevel := by
  intro rest
  induction rest with
  | nil => intro skip current token hasQuota parenthesesLevel h; simp [scan, scanWith]
  | cons r rest ih =>
    intro skip current token hasQuota parenthesesLevel h
    cases skip with
    | succ k => simp only [scan, scanWith]; exact ih _ _ _ _ _ _
    | zero =>
      simp only [scan, scanWith, hrec]
      split_ifs <;> exact ih _ _ _ _ _ _

theorem ParseBelow_eq_flush (n : Nat) (query : String) (h : query.length < n + 1) :
    ParseBelow (n + 1) query h =
      flush (scan n (ParseBelow n) 0 (TrimSpace query.toList) .EmptyNode [] false 0
        (by have := TrimSpace_length query.toList
            simp only [String.length, String.toList, List.length_nil] at *; omega)) := by
  simp only [ParseBelow, flush]

theorem ParseBelow_eq_Parse : ∀ (n : Nat) (query : String) (h : query.length < n),
    ParseBelow n query h = Parse query := by
  intro n
  induction n using Nat.strong_induction_on with
  | _ n ih =>
    intro query h
    cases n with
    | zero => exact absurd h (Nat.not_lt_zero _)
    | succ n =>
      unfold Parse
      rw [ParseBelow_eq_flush, ParseBelow_eq_flush]
      rw [scan_eq_scanWith n (ParseBelow n) Parse (ih n (Nat.lt_succ_self n)),
        scan_eq_scanWith query.length (ParseBelow query.length) Parse (ih query.length h)]

/-- The body of `Parse`: trim, run the loop with `Parse` itself as the recursive call,
flush the buffer. -/
theorem Parse_eq (query : String) :
    Parse query = flush (scanWith Parse 0 (TrimSpace query.toList) .EmptyNode [] false 0) := by
  show ParseBelow (query.length + 1) query _ = _
  rw [ParseBelow_eq_flush,
    scan_eq_scanWith query.length (ParseBelow query.length) Parse
      (fun s h => ParseBelow_eq_Parse _ s h)]


/-! ## The loop, one rune or one run of runes at a time -/

theorem isSpace_blank : isSpace ' ' = true := by decide

theorem PlainWord.ordinary {w : String} (hw : PlainWord w) : ∀ c ∈ w.toList, Ordinary c := by
  intro c hc
  obtain ⟨h1, h2, h3, h4, h5⟩ := hw.2 c hc
  refine ⟨?_, h2, h3, h4, h5⟩
  rintro rfl
  rw [isSpace_blank] at h1
  exact absurd h1 (by decide)

theorem scanWith_ordinary (P : String → Node × Option GoError) (c : Char) (hc : Ordinary c)
    (rest : List Char) (current : Node) (token : List Char) (hasQuota : Bool) (level : Int) :
    scanWith P 0 (c :: rest) current token hasQuota level =
      scanWith P 0 rest current (token ++ [c]) hasQuota level := by
  obtain ⟨h1, h2, h3, h4, h5⟩ := hc
  simp only [scanWith, h1, h2, h3, h4, h5, if_false]

theorem scanWith_ordinaries (P : String → Node × Option GoError) (cs : List Char)
    (hcs : ∀ c ∈ cs, Ordinary c) (rest : List Char) (current : Node) (token : List Char)
    (hasQuota : Bool) (level : Int) :
    scanWith P 0 (cs ++ rest) current token hasQuota level =
      scanWith P 0 rest current (token ++ cs) hasQuota level := by
  induction cs generalizing token with
  | nil => simp
  | cons c cs ih =>
    rw [List.cons_append, scanWith_ordinary P c (hcs c (List.mem_cons_self _ _)),
      ih (fun d hd => hcs d (List.mem_cons_of_mem _ hd))]
    simp

/-- Inside an open quote and outside every group, all runes but the quote, the colon and
the parentheses are written to the buffer. -/
theorem scanWith_quoted (P : String → Node × Option GoError) (cs : List Char)
    (hcs : ∀ c ∈ cs, c ≠ '"' ∧ c ≠ ':' ∧ c ≠ '(' ∧ c ≠ ')') (rest : List Char)
    (current : Node) (token : List Char) (level : Int) :
    scanWith P 0 (cs ++ rest) current token true level =
      scanWith P 0 rest current (token ++ cs) true level := by
  induction cs generalizing token with
  | nil => simp
  | cons c cs ih =>
    obtain ⟨h2, h3, h4, h5⟩ := hcs c (List.mem_cons_self _ _)
    rw [List.cons_append]
    have step : scanWith P 0 (c :: (cs ++ rest)) current token true level =
        scanWith P 0 (cs ++ rest) current (token ++ [c]) true level := by
      simp only [scanWith, h2, h3, h4, h5, if_false]
      split_ifs <;> rfl
    rw [step, ih (fun d hd => hcs d (List.mem_cons_of_mem _ hd))]
    simp

/-- The wrap that precedes `Apply` in the space branch changes nothing: for a `ValueNode`
or a `CompleteMatchNode` the pending `AndNode` is filled at once. -/
theorem wrap_Apply (current node : Node) :
    (if (!isOperand current && decide (current.Type ≠ .Empty)) = true
      then Node.AndNode current none else current).Apply node = current.Apply node := by
  cases current <;> simp [isOperand, Node.Type, Node.Apply]

/-- A space outside quotes and groups after a token that is no keyword: the token is
parsed and applied. -/
theorem scanWith_space (P : String → Node × Option GoError) (rest : List Char)
    (current : Node) (token : List Char) (h1 : String.mk token ≠ "or")
    (h2 : String.mk token ≠ "and") :
    scanWith P 0 (' ' :: rest) current token false 0 =
      scanWith P 0 rest (current.Apply (P (String.mk token)).1) [] false 0 := by
  simp only [scanWith, h1, h2, if_false, if_true, gt_iff_lt, lt_self_iff_false,
    Bool.false_eq_true]
  rw [wrap_Apply]

theorem scanWith_space_and (P : String → Node × Option GoError) (rest : List Char)
    (current : Node) :
    scanWith P 0 (' ' :: rest) current ['a', 'n', 'd'] false 0 =
      scanWith P 0 rest (.AndNode current none) [] false 0 := by
  simp [scanWith]

theorem scanWith_space_or (P : String → Node × Option GoError) (rest : List Char)
    (current : Node) :
    scanWith P 0 (' ' :: rest) current ['o', 'r'] false 0 =
      scanWith P 0 rest (.OrNode current none) [] false 0 := by
  simp [scanWith]

/-- A quoted phrase outside every group: the text between the quotes, appended to what
the buffer held, becomes a `CompleteMatchNode`. -/
theorem scanWith_phrase (P : String → Node × Option GoError) (p : List Char)
    (hp : ∀ c ∈ p, c ≠ '"' ∧ c ≠ ':' ∧ c ≠ '(' ∧ c ≠ ')') (rest : List Char)
    (current : Node) (token : List Char) :
    scanWith P 0 ('"' :: (p ++ '"' :: rest)) current token false 0 =
      scanWith P 0 rest (current.Apply (.CompleteMatchNode (String.mk (token ++ p)))) []
        false 0 := by
  have open_ : scanWith P 0 ('"' :: (p ++ '"' :: rest)) current token false 0 =
      scanWith P 0 (p ++ '"' :: rest) current token true 0 := by
    simp [scanWith]
  rw [open_, scanWith_quoted P p hp]
  simp [scanWith]

/-! ## Trimming -/

theorem TrimSpace_of_all_space (runes : List Char) (h : ∀ c ∈ runes, isSpace c = true) :
    TrimSpace runes = [] := by
  unfold TrimSpace
  have : runes.dropWhile isSpace = [] := List.dropWhile_eq_nil_iff.mpr h
  rw [this]
  rfl

/-- Trimming leaves a text alone when its first and its last rune are no white space. -/
theorem TrimSpace_eq_self (runes : List Char)
    (hhead : ∀ c, runes.head? = some c → isSpace c = false)
    (hlast : ∀ c, runes.getLast? = some c → isSpace c = false) :
    TrimSpace runes = runes := by
  unfold TrimSpace
  have h1 : runes.dropWhile isSpace = runes := by
    cases runes with
    | nil => rfl
    | cons c cs =>
      have := hhead c rfl
      simp [List.dropWhile, this]
  rw [h1]
  have h2 : runes.reverse.dropWhile isSpace = runes.reverse := by
    cases hr : runes.reverse with
    | nil => rfl
    | cons c cs =>
      have hl : runes.getLast? = some c := by
        rw [← List.head?_reverse, hr]
        rfl
      have := hlast c hl
      simp [List.dropWhile, this]
  rw [h2, List.reverse_reverse]

theorem PlainWord.trim {w : String} (hw : PlainWord w) : TrimSpace w.toList = w.toList := by
  apply TrimSpace_eq_self
  · intro c hc
    exact (hw.2 c (List.mem_of_mem_head? hc)).1
  · intro c hc
    exact (hw.2 c (List.mem_of_mem_getLast? hc)).1

theorem flush_token (current : Node) (token : List Char) (h : token ≠ []) :
    flush (current, token) = (current.Apply (.ValueNode (String.mk token)), none) := by
  unfold flush
  have : token.length > 0 := List.length_pos.mpr h
  simp [this]

theorem flush_nil (current : Node) : flush (current, []) = (current, none) := by
  simp [flush]

theorem scanWith_nil (P : String → Node × Option GoError) (skip : Nat) (current : Node)
    (token : List Char) (hasQuota : Bool) (level : Int) :
    scanWith P skip [] current token hasQuota level = (current, token) := by
  cases skip <;> simp [scanWith]

/-- A last word, scanned from an empty buffer up to the end of the input, is applied as a
`ValueNode` by the flush. -/
theorem flush_scanWith_word (P : String → Node × Option GoError) (cs : List Char)
    (hcs : ∀ c ∈ cs, Ordinary c) (hne : cs ≠ []) (current : Node) (hasQuota : Bool)
    (level : Int) :
    flush (scanWith P 0 cs current [] hasQuota level) =
      (current.Apply (.ValueNode (String.mk cs)), none) := by
  have := scanWith_ordinaries P cs hcs [] current [] hasQuota level
  rw [List.append_nil] at this
  rw [this, scanWith_nil, List.nil_append, flush_token _ _ hne]

theorem Parse_PlainWord (w : String) (hw : PlainWord w) : Parse w = (.ValueNode w, none) := by
  rw [Parse_eq, hw.trim, flush_scanWith_word Parse w.toList hw.ordinary hw.1]
  rfl

theorem Parse_empty : Parse "" = (.EmptyNode, none) := by rfl

/-! ## The value-extent helper on a text without a boundary -/

theorem othersLoop_none (runes rest : List Char) (i : Nat)
    (h : ∀ c ∈ rest, c ≠ ' ' ∧ c ≠ ')') : othersLoop runes rest i = ("", 0) := by
  induction rest generalizing i with
  | nil => rfl
  | cons r rest ih =>
    obtain ⟨h1, h2⟩ := h r (List.mem_cons_self _ _)
    unfold othersLoop
    simp only [h1, h2, or_self, if_false]
    exact ih _ (fun c hc => h c (List.mem_cons_of_mem _ hc))

theorem readUntilFinishLevel_none (query : List Char)
    (h : ∀ c ∈ query, c ≠ ' ' ∧ c ≠ ')' ∧ c ≠ '(') : readUntilFinishLevel query = ("", 0) := by
  unfold readUntilFinishLevel
  split
  · rename_i rest
    exact absurd rfl (h '(' (List.mem_cons_self _ _)).2.2
  · exact othersLoop_none _ _ _ (fun c hc => ⟨(h c hc).1, (h c hc).2.1⟩)

/-- A colon outside every group: the buffer is the key, the helper delimits the value, the
value is parsed, and the loop resumes after the runes the helper counted. -/
theorem scanWith_colon (P : String → Node × Option GoError) (rest : List Char)
    (current : Node) (token : List Char) (hasQuota : Bool) :
    scanWith P 0 (':' :: rest) current token hasQuota 0 =
      scanWith P (readUntilFinishLevel rest).2 rest
        (current.Apply (.KeyNode (String.mk token) (P (readUntilFinishLevel rest).1).1)) []
        hasQuota 0 := by
  simp [scanWith]

theorem PlainWord.no_boundary {w : String} (hw : PlainWord w) :
    ∀ c ∈ w.toList, c ≠ ' ' ∧ c ≠ ')' ∧ c ≠ '(' := by
  intro c hc
  obtain ⟨h1, _, _, h4, h5⟩ := hw.ordinary c hc
  exact ⟨h1, h5, h4⟩

/-! ## Single terms -/

/-- C7: an input that is empty or made of white space only parses to the Empty node. -/
theorem Parse_blank (query : String) (h : ∀ c ∈ query.toList, isSpace c = true) :
    Parse query = (.EmptyNode, none) := by
  rw [Parse_eq, TrimSpace_of_all_space _ h, scanWith_nil, flush_nil]

theorem Parse_blank_witness :
    (∀ c ∈ " \t\n ".toList, isSpace c = true) ∧ Parse " \t\n " = (.EmptyNode, none) :=
  ⟨by decide, Parse_blank " \t\n " (by decide)⟩

/-- C6: a plain word, the words "and" and "or" included, parses to a Value node that holds
the word unchanged. -/
theorem Parse_word (w : String) (hw : PlainWord w) : Parse w = (.ValueNode w, none) :=
  Parse_PlainWord w hw

theorem Parse_word_witness :
    PlainWord "and" ∧ Parse "and" = (.ValueNode "and", none) :=
  ⟨by decide, Parse_word "and" (by decide)⟩

/-- C5: a text without double quote, colon or parenthesis, wrapped in one pair of double
quotes, parses to a CompleteMatch node that holds the text between the quotes unchanged,
spaces at either end included. -/
theorem Parse_quoted (p : String) (hp : PlainPhrase p) :
    Parse ("\"" ++ p ++ "\"") = (.CompleteMatchNode p, none) := by
  rw [Parse_eq]
  have htext : ("\"" ++ p ++ "\"").toList = '"' :: (p.toList ++ '"' :: []) := by
    simp [String.toList]
  rw [htext, TrimSpace_eq_self]
  · rw [scanWith_phrase Parse p.toList hp, scanWith_nil, flush_nil]
    rfl
  · intro c hc
    simp only [List.head?_cons, Option.some.injEq] at hc
    subst hc
    decide
  · intro c hc
    rw [← List.cons_append, List.getLast?_append_of_ne_nil _ (List.cons_ne_nil _ _)] at hc
    simp only [List.getLast?_singleton, Option.some.injEq] at hc
    subst hc
    decide

theorem Parse_quoted_witness :
    PlainPhrase " foo  bar " ∧
      Parse ("\"" ++ " foo  bar " ++ "\"") = (.CompleteMatchNode " foo  bar ", none) :=
  ⟨by decide, Parse_quoted " foo  bar " (by decide)⟩

/-- C3: for plain words k and v, the text k:v parses to a Key node with key k and value
Value v, and the error is nil. -/
theorem Parse_key_value (k v : String) (hk : PlainWord k) (hv : PlainWord v) :
    Parse (k ++ ":" ++ v) = (.KeyNode k (.ValueNode v), none) := by
  rw [Parse_eq]
  have htext : (k ++ ":" ++ v).toList = k.toList ++ ':' :: v.toList := by
    simp [String.toList]
  rw [htext, TrimSpace_eq_self]
  · rw [scanWith_ordinaries Parse k.toList hk.ordinary, scanWith_colon,
      readUntilFinishLevel_none v.toList hv.no_boundary, Parse_empty]
    rw [flush_scanWith_word Parse v.toList hv.ordinary hv.1]
    rfl
  · intro c hc
    rw [List.head?_append_of_ne_nil _ hk.1] at hc
    exact (hk.2 c (List.mem_of_mem_head? hc)).1
  · intro c hc
    rw [← List.singleton_append, ← List.append_assoc,
      List.getLast?_append_of_ne_nil _ hv.1] at hc
    exact (hv.2 c (List.mem_of_mem_getLast? hc)).1

theorem Parse_key_value_witness :
    PlainWord "foo" ∧ PlainWord "bar" ∧
      Parse ("foo" ++ ":" ++ "bar") = (.KeyNode "foo" (.ValueNode "bar"), none) :=
  ⟨by decide, by decide, Parse_key_value "foo" "bar" (by decide) (by decide)⟩

/-! ## Chains of conjunctions and of disjunctions -/

theorem NotKeyword.mk_toList {w : String} (hw : NotKeyword w) :
    String.mk w.toList ≠ "or" ∧ String.mk w.toList ≠ "and" := ⟨hw.2, hw.1⟩

/-- From a word in the buffer, either separator of a conjunction leaves a node that takes
the next operand as the right side of an `AndNode` over the tree so far. -/
theorem scanWith_andSep (b : Bool) (current : Node) (w : String) (hw : PlainWord w)
    (hk : NotKeyword w)
    (hT : ∀ x, (current.Apply (.ValueNode w)).Apply x =
      .AndNode (current.Apply (.ValueNode w)) (some x))
    (rest : List Char) :
    ∃ c, (∀ x, c.Apply x = .AndNode (current.Apply (.ValueNode w)) (some x)) ∧
      scanWith Parse 0 ((andSep b).toList ++ rest) current w.toList false 0 =
        scanWith Parse 0 rest c [] false 0 := by
  cases b with
  | false =>
    refine ⟨current.Apply (.ValueNode w), hT, ?_⟩
    show scanWith Parse 0 (' ' :: rest) current w.toList false 0 = _
    rw [scanWith_space Parse rest current w.toList hk.mk_toList.1 hk.mk_toList.2]
    show scanWith Parse 0 rest (current.Apply (Parse w).1) [] false 0 = _
    rw [Parse_PlainWord w hw]
  | true =>
    refine ⟨.AndNode (current.Apply (.ValueNode w)) none, fun x => rfl, ?_⟩
    show scanWith Parse 0 (' ' :: (['a', 'n', 'd'] ++ ' ' :: rest)) current w.toList false 0 = _
    rw [scanWith_space Parse _ current w.toList hk.mk_toList.1 hk.mk_toList.2,
      scanWith_ordinaries Parse ['a', 'n', 'd'] (by decide), List.nil_append,
      scanWith_space_and]
    show scanWith Parse 0 rest (.AndNode (current.Apply (Parse w).1) none) [] false 0 = _
    rw [Parse_PlainWord w hw]

/-- The keyword "or" between two terms, from a word in the buffer. -/
theorem scanWith_orSep (current : Node) (w : String) (hw : PlainWord w) (hk : NotKeyword w)
    (rest : List Char) :
    scanWith Parse 0 (" or ".toList ++ rest) current w.toList false 0 =
      scanWith Parse 0 rest (.OrNode (current.Apply (.ValueNode w)) none) [] false 0 := by
  show scanWith Parse 0 (' ' :: (['o', 'r'] ++ ' ' :: rest)) current w.toList false 0 = _
  rw [scanWith_space Parse _ current w.toList hk.mk_toList.1 hk.mk_toList.2,
    scanWith_ordinaries Parse ['o', 'r'] (by decide), List.nil_append, scanWith_space_or]
  show scanWith Parse 0 rest (.OrNode (current.Apply (Parse w).1) none) [] false 0 = _
  rw [Parse_PlainWord w hw]

/-- A last term read from an empty buffer up to the end of the input is applied to
`current`. -/
theorem flush_scanWith_term (last : Term) (hl : last.WellFormed) (current : Node) :
    flush (scanWith Parse 0 last.text.toList current [] false 0) =
      (current.Apply last.node, none) := by
  cases last with
  | word v =>
    exact flush_scanWith_word Parse v.toList hl.1.ordinary hl.1.1 current false 0
  | phrase p =>
    have htext : (Term.phrase p).text.toList = '"' :: (p.toList ++ '"' :: []) := by
      simp [Term.text, String.toList]
    rw [htext, scanWith_phrase Parse p.toList hl, scanWith_nil, flush_nil]
    rfl

theorem Term.text_ne_nil (last : Term) (hl : last.WellFormed) : last.text.toList ≠ [] := by
  cases last with
  | word v => exact hl.1.1
  | phrase p => simp [Term.text, String.toList]

theorem Term.text_getLast (last : Term) (hl : last.WellFormed) :
    ∀ c, last.text.toList.getLast? = some c → isSpace c = false := by
  cases last with
  | word v =>
    intro c hc
    exact (hl.1.2 c (List.mem_of_mem_getLast? hc)).1
  | phrase p =>
    intro c hc
    have htext : (Term.phrase p).text.toList = ('"' :: p.toList) ++ ['"'] := by
      simp [Term.text, String.toList]
    rw [htext, List.getLast?_append_of_ne_nil _ (List.cons_ne_nil _ _)] at hc
    simp only [List.getLast?_singleton, Option.some.injEq] at hc
    subst hc
    decide

theorem flush_scanWith_andChain (mids : List (Bool × String))
    (hm : ∀ m ∈ mids, PlainWord m.2 ∧ NotKeyword m.2) (b : Bool) (last : Term)
    (hl : last.WellFormed) :
    ∀ (current : Node) (w : String), PlainWord w → NotKeyword w →
      (∀ x, (current.Apply (.ValueNode w)).Apply x =
        .AndNode (current.Apply (.ValueNode w)) (some x)) →
      flush (scanWith Parse 0
          ((andChainText mids).toList ++ ((andSep b).toList ++ last.text.toList))
          current w.toList false 0) =
        (.AndNode (andChainTree (current.Apply (.ValueNode w)) mids) (some last.node),
          none) := by
  induction mids with
  | nil =>
    intro current w hw hk hT
    obtain ⟨c, hc, hscan⟩ := scanWith_andSep b current w hw hk hT last.text.toList
    show flush (scanWith Parse 0 ([] ++ ((andSep b).toList ++ last.text.toList)) _ _ _ _) = _
    rw [List.nil_append, hscan, flush_scanWith_term last hl, hc]
    rfl
  | cons m ms ih =>
    intro current w hw hk hT
    obtain ⟨hmw, hmk⟩ := hm m (List.mem_cons_self _ _)
    have htext : (andChainText (m :: ms)).toList ++ ((andSep b).toList ++ last.text.toList) =
        (andSep m.1).toList ++ (m.2.toList ++ ((andChainText ms).toList ++
          ((andSep b).toList ++ last.text.toList))) := by
      simp [andChainText, String.toList]
    obtain ⟨c, hc, hscan⟩ := scanWith_andSep m.1 current w hw hk hT
      (m.2.toList ++ ((andChainText ms).toList ++ ((andSep b).toList ++ last.text.toList)))
    rw [htext, hscan, scanWith_ordinaries Parse m.2.toList hmw.ordinary, List.nil_append,
      ih (fun m' hm' => hm m' (List.mem_cons_of_mem _ hm')) c m.2 hmw hmk
        (by intro x; rw [hc]; rfl), hc]
    rfl

theorem flush_scanWith_orChain (ws : List String)
    (hws : ∀ w ∈ ws, PlainWord w ∧ NotKeyword w) (last : Term) (hl : last.WellFormed) :
    ∀ (current : Node) (w : String), PlainWord w → NotKeyword w →
      flush (scanWith Parse 0
          ((orChainText ws).toList ++ (" or ".toList ++ last.text.toList))
          current w.toList false 0) =
        (.OrNode (orChainTree (current.Apply (.ValueNode w)) ws) (some last.node), none) := by
  induction ws with
  | nil =>
    intro current w hw hk
    show flush (scanWith Parse 0 ([] ++ (" or ".toList ++ last.text.toList)) _ _ _ _) = _
    rw [List.nil_append, scanWith_orSep current w hw hk, flush_scanWith_term last hl]
    rfl
  | cons v vs ih =>
    intro current w hw hk
    obtain ⟨hvw, hvk⟩ := hws v (List.mem_cons_self _ _)
    have htext : (orChainText (v :: vs)).toList ++ (" or ".toList ++ last.text.toList) =
        " or ".toList ++ (v.toList ++ ((orChainText vs).toList ++
          (" or ".toList ++ last.text.toList))) := by
      simp [orChainText, String.toList]
    rw [htext, scanWith_orSep current w hw hk,
      scanWith_ordinaries Parse v.toList hvw.ordinary, List.nil_append,
      ih (fun w' hw' => hws w' (List.mem_cons_of_mem _ hw')) _ v hvw hvk]
    rfl

/-- A text that starts with a plain word and ends with a well-formed term is left alone
by the trimming. -/
theorem TrimSpace_word_term (w1 : String) (h1 : PlainWord w1) (middle : List Char)
    (last : Term) (hl : last.WellFormed) :
    TrimSpace (w1.toList ++ (middle ++ last.text.toList)) =
      w1.toList ++ (middle ++ last.text.toList) := by
  apply TrimSpace_eq_self
  · intro c hc
    rw [List.head?_append_of_ne_nil _ h1.1] at hc
    exact (h1.2 c (List.mem_of_mem_head? hc)).1
  · intro c hc
    rw [← List.append_assoc, List.getLast?_append_of_ne_nil _ (last.text_ne_nil hl)] at hc
    exact last.text_getLast hl c hc

/-- C1: n ≥ 2 terms, the first n - 1 of them plain words other than "and" and "or", the
last one such a word or a quoted phrase, joined pairwise by one space or by " and " in any
mixture, parse to the left-nested conjunction of the terms: And(..And(And(Value w1,
Value w2), Value w3).., last), where a word contributes a Value node and a quoted phrase
a CompleteMatch node.  With no word in between, "a b" and "a and b" both give
And(Value a, Value b). -/
theorem Parse_and_chain (w1 : String) (mids : List (Bool × String)) (b : Bool) (last : Term)
    (h1 : PlainWord w1) (k1 : NotKeyword w1)
    (hm : ∀ m ∈ mids, PlainWord m.2 ∧ NotKeyword m.2) (hl : last.WellFormed) :
    Parse (w1 ++ andChainText mids ++ andSep b ++ last.text) =
      (.AndNode (andChainTree (.ValueNode w1) mids) (some last.node), none) := by
  rw [Parse_eq]
  have htext : (w1 ++ andChainText mids ++ andSep b ++ last.text).toList =
      w1.toList ++ (((andChainText mids).toList ++ (andSep b).toList) ++ last.text.toList) := by
    simp [String.toList]
  rw [htext, TrimSpace_word_term w1 h1 _ last hl,
    scanWith_ordinaries Parse w1.toList h1.ordinary, List.nil_append, List.append_assoc]
  exact flush_scanWith_andChain mids hm b last hl .EmptyNode w1 h1 k1 (fun x => rfl)

theorem Parse_and_chain_witness :
    (PlainWord "foo" ∧ NotKeyword "foo") ∧
    (∀ m ∈ [(true, "bar"), (false, "baz")], PlainWord m.2 ∧ NotKeyword m.2) ∧
    (Term.phrase "foo bar").WellFormed ∧
    Parse ("foo" ++ andChainText [(true, "bar"), (false, "baz")] ++ andSep false ++
        (Term.phrase "foo bar").text) =
      (.AndNode (andChainTree (.ValueNode "foo") [(true, "bar"), (false, "baz")])
        (some (Term.phrase "foo bar").node), none) :=
  ⟨by decide, by decide, by decide,
    Parse_and_chain "foo" [(true, "bar"), (false, "baz")] false (.phrase "foo bar")
      (by decide) (by decide) (by decide) (by decide)⟩

/-- C2: n ≥ 2 terms, the first n - 1 of them plain words other than "and" and "or", the
last one such a word or a quoted phrase, joined by " or ", parse to the left-nested
disjunction Or(..Or(Or(Value w1, Value w2), Value w3).., last), where a quoted phrase
contributes a CompleteMatch node. -/
theorem Parse_or_chain (w1 : String) (ws : List String) (last : Term)
    (h1 : PlainWord w1) (k1 : NotKeyword w1)
    (hws : ∀ w ∈ ws, PlainWord w ∧ NotKeyword w) (hl : last.WellFormed) :
    Parse (w1 ++ orChainText ws ++ " or " ++ last.text) =
      (.OrNode (orChainTree (.ValueNode w1) ws) (some last.node), none) := by
  rw [Parse_eq]
  have htext : (w1 ++ orChainText ws ++ " or " ++ last.text).toList =
      w1.toList ++ (((orChainText ws).toList ++ " or ".toList) ++ last.text.toList) := by
    simp [String.toList]
  rw [htext, TrimSpace_word_term w1 h1 _ last hl,
    scanWith_ordinaries Parse w1.toList h1.ordinary, List.nil_append, List.append_assoc]
  exact flush_scanWith_orChain ws hws last hl .EmptyNode w1 h1 k1

theorem Parse_or_chain_witness :
    (PlainWord "foo" ∧ NotKeyword "foo") ∧
    (∀ w ∈ ["bar"], PlainWord w ∧ NotKeyword w) ∧
    (Term.phrase "foo bar").WellFormed ∧
    Parse ("foo" ++ orChainText ["bar"] ++ " or " ++ (Term.phrase "foo bar").text) =
      (.OrNode (orChainTree (.ValueNode "foo") ["bar"])
        (some (Term.phrase "foo bar").node), none) :=
  ⟨by decide, by decide, by decide,
    Parse_or_chain "foo" ["bar"] (.phrase "foo bar") (by decide) (by decide) (by decide)
      (by decide)⟩

/-! ## Groups -/

/-- Inside a group every rune but a parenthesis is written to the buffer. -/
theorem scanWith_inside (P : String → Node × Option GoError) (c : Char) (h1 : c ≠ '(')
    (h2 : c ≠ ')') (rest : List Char) (current : Node) (token : List Char) (hasQuota : Bool)
    (level : Int) (hl : 1 ≤ level) :
    scanWith P 0 (c :: rest) current token hasQuota level =
      scanWith P 0 rest current (token ++ [c]) hasQuota level := by
  have hpos : level > 0 := by omega
  simp only [scanWith, h1, h2, hpos, if_true, if_false]
  split_ifs <;> rfl

theorem scanWith_inside_open (P : String → Node × Option GoError) (rest : List Char)
    (current : Node) (token : List Char) (hasQuota : Bool) (level : Int) (hl : 1 ≤ level) :
    scanWith P 0 ('(' :: rest) current token hasQuota level =
      scanWith P 0 rest current (token ++ ['(']) hasQuota (level + 1) := by
  have hpos : level > 0 := by omega
  simp [scanWith, hpos]

theorem scanWith_inside_close (P : String → Node × Option GoError) (rest : List Char)
    (current : Node) (token : List Char) (hasQuota : Bool) (level : Int) (hl : 2 ≤ level) :
    scanWith P 0 (')' :: rest) current token hasQuota level =
      scanWith P 0 rest current (token ++ [')']) hasQuota (level - 1) := by
  have hne : ¬ (level - 1 = 0) := by omega
  simp [scanWith, hne]

/-- The runes of a text are all written to the buffer while the nesting level stays at 1
or above. -/
theorem scanWith_group (P : String → Node × Option GoError) (e : List Char) :
    ∀ (rest : List Char) (current : Node) (token : List Char) (hasQuota : Bool)
      (level : Int),
      (∀ k ≤ e.length,
        1 ≤ level + ((e.take k).count '(' : Int) - ((e.take k).count ')' : Int)) →
      scanWith P 0 (e ++ rest) current token hasQuota level =
        scanWith P 0 rest current (token ++ e) hasQuota
          (level + (e.count '(' : Int) - (e.count ')' : Int)) := by
  induction e with
  | nil => intro rest current token hasQuota level _; simp
  | cons c e ih =>
    intro rest current token hasQuota level h
    have h0 : 1 ≤ level := by
      have := h 0 (Nat.zero_le _)
      simpa using this
    have h1 := h 1 (by simp)
    have hk : ∀ k ≤ e.length, 1 ≤ level + (((c :: e).take (k + 1)).count '(' : Int) -
        (((c :: e).take (k + 1)).count ')' : Int) :=
      fun k hk => h (k + 1) (by simpa using hk)
    rw [List.cons_append]
    by_cases hopen : c = '('
    · subst hopen
      rw [scanWith_inside_open P _ _ _ _ _ h0, ih]
      · simp only [List.append_assoc, List.singleton_append, List.count_cons_self,
          ne_eq, reduceCtorEq, not_false_eq_true, List.count_cons_of_ne, Nat.cast_add,
          Nat.cast_one]
        rw [List.count_cons_of_ne (by decide)]
        congr 1
        omega
      · intro k hk'
        have := hk k hk'
        simp only [List.take_succ_cons, List.count_cons_self, Nat.cast_add, Nat.cast_one] at this
        rw [List.count_cons_of_ne (by decide)] at this
        omega
    · by_cases hclose : c = ')'
      · subst hclose
        have h2 : 2 ≤ level := by
          simp only [List.take_succ_cons, List.take_zero, List.count_cons_self,
            List.count_nil, Nat.cast_add, Nat.cast_one] at h1
          rw [List.count_cons_of_ne (by decide)] at h1
          simp at h1
          omega
        rw [scanWith_inside_close P _ _ _ _ _ h2, ih]
        · simp only [List.append_assoc, List.singleton_append, List.count_cons_self,
            Nat.cast_add, Nat.cast_one]
          rw [List.count_cons_of_ne (by decide)]
          congr 1
          omega
        · intro k hk'
          have := hk k hk'
          simp only [List.take_succ_cons, List.count_cons_self, Nat.cast_add,
            Nat.cast_one] at this
          rw [List.count_cons_of_ne (by decide)] at this
          omega
      · rw [scanWith_inside P c hopen hclose _ _ _ _ _ h0, ih]
        · simp only [List.append_assoc, List.singleton_append]
          rw [List.count_cons_of_ne (Ne.symm hopen), List.count_cons_of_ne (Ne.symm hclose)]
        · intro k hk'
          have := hk k hk'
          simp only [List.take_succ_cons] at this
          rw [List.count_cons_of_ne (Ne.symm hopen),
            List.count_cons_of_ne (Ne.symm hclose)] at this
          exact this

theorem scanWith_open_top (P : String → Node × Option GoError) (rest : List Char)
    (current : Node) (token : List Char) (hasQuota : Bool) :
    scanWith P 0 ('(' :: rest) current token hasQuota 0 =
      scanWith P 0 rest current token hasQuota 1 := by
  simp [scanWith]

theorem scanWith_close_group (P : String → Node × Option GoError) (rest : List Char)
    (current : Node) (token : List Char) (hasQuota : Bool) :
    scanWith P 0 (')' :: rest) current token hasQuota 1 =
      scanWith P 0 rest (current.Apply (P (String.mk token)).1) [] hasQuota 0 := by
  simp [scanWith]

/-- C4: for a plain word a other than "and" and "or" and a text e with balanced
parentheses, the query a (e) parses to And(Value a, Parse(e)): the group is parsed on its
own and conjoined with the word before it. -/
theorem Parse_group (a e : String) (ha : PlainWord a) (hk : NotKeyword a)
    (he : Balanced e) :
    Parse (a ++ " (" ++ e ++ ")") = (.AndNode (.ValueNode a) (some (Parse e).1), none) := by
  rw [Parse_eq]
  have htext : (a ++ " (" ++ e ++ ")").toList =
      a.toList ++ (' ' :: '(' :: (e.toList ++ [')'])) := by
    simp [String.toList]
  have htrim : TrimSpace (a.toList ++ (' ' :: '(' :: (e.toList ++ [')']))) =
      a.toList ++ (' ' :: '(' :: (e.toList ++ [')'])) := by
    apply TrimSpace_eq_self
    · intro c hc
      rw [List.head?_append_of_ne_nil _ ha.1] at hc
      exact (ha.2 c (List.mem_of_mem_head? hc)).1
    · intro c hc
      have hsplit : a.toList ++ (' ' :: '(' :: (e.toList ++ [')'])) =
          (a.toList ++ (' ' :: '(' :: e.toList)) ++ [')'] := by simp
      rw [hsplit, List.getLast?_append_of_ne_nil _ (List.cons_ne_nil _ _)] at hc
      simp only [List.getLast?_singleton, Option.some.injEq] at hc
      subst hc
      decide
  have hlevel : ∀ k ≤ e.toList.length,
      1 ≤ (1 : Int) + ((e.toList.take k).count '(' : Int) - ((e.toList.take k).count ')' : Int) := by
    intro k hk'
    have := he.1 k hk'
    omega
  have hend : (1 : Int) + (e.toList.count '(' : Int) - (e.toList.count ')' : Int) = 1 := by
    have := he.2
    omega
  rw [htext, htrim, scanWith_ordinaries Parse a.toList ha.ordinary, List.nil_append,
    scanWith_space Parse _ _ a.toList hk.mk_toList.1 hk.mk_toList.2, scanWith_open_top,
    scanWith_group Parse e.toList _ _ _ _ 1 hlevel, hend, scanWith_close_group,
    scanWith_nil, flush_nil, List.nil_append]
  show ((Node.EmptyNode.Apply (Parse a).1).Apply (Parse e).1, none) = _
  rw [Parse_PlainWord a ha]
  rfl

theorem Parse_group_witness :
    (PlainWord "foo" ∧ NotKeyword "foo" ∧ Balanced "bar or (x y)") ∧
      Parse ("foo" ++ " (" ++ "bar or (x y)" ++ ")") =
        (.AndNode (.ValueNode "foo") (some (Parse "bar or (x y)").1), none) :=
  ⟨by decide, Parse_group "foo" "bar or (x y)" (by decide) (by decide) (by decide)⟩

/-! ## The end-to-end case of the test suite and its two tails -/

/-- C8: on the canonical query of the test suite, foo and (key:value or (foobar and
key2:"value2")) or key3:value3 FOO, `Parse` returns Or(And(And(Value foo, Or(Key(key,
Value value), And(And(Value foobar, Key(key2, Empty)), CompleteMatch value2))), Empty),
Value FOO) with a nil error, which is not the tree And(Or(And(Value foo, Or(Key(key,
Value value), And(Value foobar, Key(key2, CompleteMatch value2)))), Key(key3, Value
value3)), Value FOO) that the test expects. -/
theorem Parse_canonicalQuery :
    Parse canonicalQuery = (canonicalActual, none) ∧
      Parse canonicalQuery ≠ (canonicalExpected, none) := by
  have h : Parse canonicalQuery = (canonicalActual, none) := by rfl
  refine ⟨h, ?_⟩
  rw [h]
  simp [canonicalActual, canonicalExpected]

/-- C9: a field term on the right of a conjunction loses its value to the conjunction: on
foobar and key2:"value2" `Parse` returns And(And(Value foobar, Key(key2, Empty)),
CompleteMatch value2), not And(Value foobar, Key(key2, CompleteMatch value2)), and on
a and k:v it returns And(And(Value a, Key(k, Empty)), Value v), not
And(Value a, Key(k, Value v)). -/
theorem Parse_and_key :
    (Parse "foobar and key2:\"value2\"" =
        (.AndNode (.AndNode (.ValueNode "foobar") (some (.KeyNode "key2" .EmptyNode)))
          (some (.CompleteMatchNode "value2")), none) ∧
      Parse ("foobar" ++ " and " ++ "key2" ++ ":\"" ++ "value2" ++ "\"") ≠
        (.AndNode (.ValueNode "foobar")
          (some (.KeyNode "key2" (.CompleteMatchNode "value2"))), none)) ∧
    (Parse "a and k:v" =
        (.AndNode (.AndNode (.ValueNode "a") (some (.KeyNode "k" .EmptyNode)))
          (some (.ValueNode "v")), none) ∧
      Parse ("a" ++ " and " ++ "k" ++ ":" ++ "v") ≠
        (.AndNode (.ValueNode "a") (some (.KeyNode "k" (.ValueNode "v"))), none)) := by
  have h1 : Parse "foobar and key2:\"value2\"" =
      (.AndNode (.AndNode (.ValueNode "foobar") (some (.KeyNode "key2" .EmptyNode)))
        (some (.CompleteMatchNode "value2")), none) := by rfl
  have h2 : Parse "a and k:v" =
      (.AndNode (.AndNode (.ValueNode "a") (some (.KeyNode "k" .EmptyNode)))
        (some (.ValueNode "v")), none) := by rfl
  refine ⟨⟨h1, ?_⟩, ⟨h2, ?_⟩⟩
  · show Parse "foobar and key2:\"value2\"" ≠ _
    rw [h1]
    simp
  · show Parse "a and k:v" ≠ _
    rw [h2]
    simp

/-- C10: a term juxtaposed after a completed disjunction replaces the right operand of
the disjunction: on a or b c `Parse` returns Or(Value a, Value c), not
And(Or(Value a, Value b), Value c); the operand b is dropped. -/
theorem Parse_or_then_term :
    Parse "a or b c" = (.OrNode (.ValueNode "a") (some (.ValueNode "c")), none) ∧
      Parse ("a" ++ " or " ++ "b" ++ " " ++ "c") ≠
        (.AndNode (.OrNode (.ValueNode "a") (some (.ValueNode "b")))
          (some (.ValueNode "c")), none) := by
  have h : Parse "a or b c" = (.OrNode (.ValueNode "a") (some (.ValueNode "c")), none) := by
    rfl
  refine ⟨h, ?_⟩
  show Parse "a or b c" ≠ _
  rw [h]
  simp

/-! ## A term after a quoted phrase, and a colon between quotes -/

/-- C11: a quoted phrase followed by a word is not conjoined with it directly: on
"foo bar" baz `Parse` returns And(And(CompleteMatch foo bar, Empty), Value baz), with an
Empty node as an operand, not And(CompleteMatch foo bar, Value baz). -/
theorem Parse_phrase_then_word :
    Parse "\"foo bar\" baz" =
        (.AndNode (.AndNode (.CompleteMatchNode "foo bar") (some .EmptyNode))
          (some (.ValueNode "baz")), none) ∧
      Parse ("\"" ++ "foo bar" ++ "\" " ++ "baz") ≠
        (.AndNode (.CompleteMatchNode "foo bar") (some (.ValueNode "baz")), none) := by
  have h : Parse "\"foo bar\" baz" =
      (.AndNode (.AndNode (.CompleteMatchNode "foo bar") (some .EmptyNode))
        (some (.ValueNode "baz")), none) := by rfl
  refine ⟨h, ?_⟩
  show Parse "\"foo bar\" baz" ≠ _
  rw [h]
  simp

/-- C16: a colon between two quotes is not literal text: on "a:b" (quotes included)
`Parse` returns Key(a, CompleteMatch b), not CompleteMatch a:b. -/
theorem Parse_colon_in_quotes :
    Parse "\"a:b\"" = (.KeyNode "a" (.CompleteMatchNode "b"), none) ∧
      Parse ("\"" ++ "a" ++ ":" ++ "b" ++ "\"") ≠
        (.CompleteMatchNode ("a" ++ ":" ++ "b"), none) := by
  have h : Parse "\"a:b\"" = (.KeyNode "a" (.CompleteMatchNode "b"), none) := by rfl
  refine ⟨h, ?_⟩
  show Parse "\"a:b\"" ≠ _
  rw [h]
  simp

/-- C17: on a text that opens with a group, the value-extent helper does not return the
interior of the group: on (a b) c and on (a b) it returns the empty text and the count 0.
It returns a b only when a second closing parenthesis follows the group at once, as in
(a b)) c, where the count is 5. -/
theorem readUntilFinishLevel_group :
    readUntilFinishLevel ("(" ++ "a b" ++ ")" ++ " c").toList = ("", 0) ∧
      readUntilFinishLevel ("(" ++ "a b" ++ ")" ++ "").toList = ("", 0) ∧
      (readUntilFinishLevel ("(" ++ "a b" ++ ")" ++ " c").toList).1 ≠ "a b" ∧
      readUntilFinishLevel ("(" ++ "a b" ++ ")" ++ ") c").toList = ("a b", 5) := by
  refine ⟨by rfl, by rfl, ?_, by rfl⟩
  rw [show readUntilFinishLevel ("(" ++ "a b" ++ ")" ++ " c").toList = ("", 0) from rfl]
  decide

/-! ## Malformed input -/

/-- C13: a colon with no value after it is not an error and leaves a Key node whose value
is the Empty node: for every plain word k, `Parse` of k: returns Key(k, Empty) with a nil
error. -/
theorem Parse_key_no_value (k : String) (hk : PlainWord k) :
    Parse (k ++ ":") = (.KeyNode k .EmptyNode, none) := by
  rw [Parse_eq]
  have htext : (k ++ ":").toList = k.toList ++ [':'] := by
    simp [String.toList]
  rw [htext, TrimSpace_eq_self]
  · rw [scanWith_ordinaries Parse k.toList hk.ordinary, scanWith_colon,
      readUntilFinishLevel_none [] (by simp), Parse_empty, scanWith_nil, flush_nil]
    rfl
  · intro c hc
    rw [List.head?_append_of_ne_nil _ hk.1] at hc
    exact (hk.2 c (List.mem_of_mem_head? hc)).1
  · intro c hc
    rw [List.getLast?_append_of_ne_nil _ (List.cons_ne_nil _ _)] at hc
    simp only [List.getLast?_singleton, Option.some.injEq] at hc
    subst hc
    decide

theorem Parse_key_no_value_witness :
    PlainWord "foo" ∧ Parse ("foo" ++ ":") = (.KeyNode "foo" .EmptyNode, none) :=
  ⟨by decide, Parse_key_no_value "foo" (by decide)⟩

/-- C13, the claim refuted: the tree returned for foo: is Key(foo, Empty), so it holds a
Key node whose value is the Empty node. -/
theorem Parse_key_no_value_counterexample :
    (Parse ("foo" ++ ":")).1 = .KeyNode "foo" .EmptyNode ∧
      (Parse ("foo" ++ ":")).1.hasEmptyKey = true :=
  ⟨by rfl, by rfl⟩

theorem scanWith_open_quote (P : String → Node × Option GoError) (rest : List Char)
    (current : Node) (token : List Char) :
    scanWith P 0 ('"' :: rest) current token false 0 =
      scanWith P 0 rest current token true 0 := by
  simp [scanWith]

/-- A text made of one rune and a plain word is left alone by the trimming when the rune
is no white space. -/
theorem TrimSpace_cons_word (c : Char) (hc : isSpace c = false) (w : String)
    (hw : PlainWord w) : TrimSpace (c :: w.toList) = c :: w.toList := by
  apply TrimSpace_eq_self
  · intro d hd
    simp only [List.head?_cons, Option.some.injEq] at hd
    subst hd
    exact hc
  · intro d hd
    rw [← List.singleton_append, List.getLast?_append_of_ne_nil _ hw.1] at hd
    exact (hw.2 d (List.mem_of_mem_getLast? hd)).1

/-- C14: malformed input is not reported.  For every plain word w, the field with no
value w: parses to Key(w, Empty), the unterminated quote "w and the unclosed group (w both
parse to Value w, and in all three cases the error is nil. -/
theorem Parse_malformed (w : String) (hw : PlainWord w) :
    Parse (w ++ ":") = (.KeyNode w .EmptyNode, none) ∧
      Parse ("\"" ++ w) = (.ValueNode w, none) ∧
      Parse ("(" ++ w) = (.ValueNode w, none) := by
  refine ⟨?_, ?_, ?_⟩
  · rw [Parse_eq]
    have htext : (w ++ ":").toList = w.toList ++ [':'] := by
      simp [String.toList]
    rw [htext, TrimSpace_eq_self]
    · rw [scanWith_ordinaries Parse w.toList hw.ordinary, scanWith_colon,
        readUntilFinishLevel_none [] (by simp), Parse_empty, scanWith_nil, flush_nil]
      rfl
    · intro c hc
      rw [List.head?_append_of_ne_nil _ hw.1] at hc
      exact (hw.2 c (List.mem_of_mem_head? hc)).1
    · intro c hc
      rw [List.getLast?_append_of_ne_nil _ (List.cons_ne_nil _ _)] at hc
      simp only [List.getLast?_singleton, Option.some.injEq] at hc
      subst hc
      decide
  · rw [Parse_eq]
    have htext : ("\"" ++ w).toList = '"' :: w.toList := by
      simp [String.toList]
    rw [htext, TrimSpace_cons_word '"' (by decide) w hw, scanWith_open_quote]
    have hq := scanWith_quoted Parse w.toList
      (fun c hc => (hw.2 c hc).2) [] .EmptyNode [] 0
    rw [List.append_nil] at hq
    rw [hq, scanWith_nil, List.nil_append, flush_token _ _ hw.1]
    rfl
  · rw [Parse_eq]
    have htext : ("(" ++ w).toList = '(' :: w.toList := by
      simp [String.toList]
    rw [htext, TrimSpace_cons_word '(' (by decide) w hw, scanWith_open_top,
      flush_scanWith_word Parse w.toList hw.ordinary hw.1]
    rfl

theorem Parse_malformed_witness :
    PlainWord "foo" ∧
      Parse ("foo" ++ ":") = (.KeyNode "foo" .EmptyNode, none) ∧
      Parse ("\"" ++ "foo") = (.ValueNode "foo", none) ∧
      Parse ("(" ++ "foo") = (.ValueNode "foo", none) :=
  ⟨by decide, Parse_malformed "foo" (by decide)⟩

/-- C14, the claim refuted: none of foo:, "foo and (foo yields an error; the error
returned is nil each time. -/
theorem Parse_malformed_counterexample :
    (Parse ("foo" ++ ":")).2 = none ∧ (Parse ("\"" ++ "foo")).2 = none ∧
      (Parse ("(" ++ "foo")).2 = none :=
  ⟨by rfl, by rfl, by rfl⟩

/-- C15: for every input, the error that `Parse` returns is nil; the node returned with
it is a node of one of the six kinds, never a missing one. -/
theorem Parse_error_nil (query : String) : (Parse query).2 = none := by
  rw [Parse_eq]
  unfold flush
  split <;> rfl

/-! ## The value-extent helper -/

theorem othersLoop_boundary (runes pre post : List Char) (c : Char)
    (hpre : ∀ d ∈ pre, d ≠ ' ' ∧ d ≠ ')') (hc : c = ' ' ∨ c = ')') (i : Nat) :
    othersLoop runes (pre ++ c :: post) i =
      (String.mk (runes.take (i + pre.length)), i + pre.length + 1) := by
  induction pre generalizing i with
  | nil =>
    simp only [List.nil_append, List.length_nil, Nat.add_zero]
    unfold othersLoop
    simp only [hc, if_true]
  | cons d pre ih =>
    obtain ⟨h1, h2⟩ := hpre d (List.mem_cons_self _ _)
    rw [List.cons_append]
    unfold othersLoop
    simp only [h1, h2, or_self, if_false]
    rw [ih (fun e he => hpre e (List.mem_cons_of_mem _ he))]
    simp only [List.length_cons]
    have : i + 1 + pre.length = i + (pre.length + 1) := by omega
    rw [this]

theorem readUntilFinishLevel_eq_others (t : List Char) (h0 : t.head? ≠ some '(') :
    readUntilFinishLevel t = othersLoop t t 0 := by
  unfold readUntilFinishLevel
  split
  · exact absurd rfl h0
  · rfl

/-- C18: on a text t that does not start with an opening parenthesis, if i is the first
index at which t has a space or a closing parenthesis, the value-extent helper returns the
first i runes of t and the count i + 1; if t has neither, it returns the empty text and
the count 0. -/
theorem readUntilFinishLevel_plain (t : List Char) (h0 : t.head? ≠ some '(') :
    (∀ (i : Nat) (c : Char), t[i]? = some c → (c = ' ' ∨ c = ')') →
        (∀ d ∈ t.take i, d ≠ ' ' ∧ d ≠ ')') →
        readUntilFinishLevel t = (String.mk (t.take i), i + 1)) ∧
      ((∀ d ∈ t, d ≠ ' ' ∧ d ≠ ')') → readUntilFinishLevel t = ("", 0)) := by
  rw [readUntilFinishLevel_eq_others t h0]
  constructor
  · intro i c hi hc hpre
    have hlt : i < t.length := (List.getElem?_eq_some_iff.mp hi).1
    have hget : t[i] = c := (List.getElem?_eq_some_iff.mp hi).2
    have hsplit : t = t.take i ++ c :: t.drop (i + 1) := by
      rw [← hget, ← List.drop_eq_getElem_cons hlt, List.take_append_drop]
    have h := othersLoop_boundary t (t.take i) (t.drop (i + 1)) c hpre hc 0
    rw [← hsplit] at h
    rw [h]
    have hlen : (t.take i).length = i := by
      rw [List.length_take]
      omega
    simp only [Nat.zero_add, hlen]
  · intro hall
    exact othersLoop_none t t 0 hall

theorem readUntilFinishLevel_plain_witness :
    "value or x".toList.head? ≠ some '(' ∧
      readUntilFinishLevel "value or x".toList = ("value", 6) ∧
      readUntilFinishLevel "value".toList = ("", 0) :=
  ⟨by decide,
    (readUntilFinishLevel_plain "value or x".toList (by decide)).1 5 ' ' (by rfl)
      (Or.inl rfl) (by decide),
    (readUntilFinishLevel_plain "value".toList (by decide)).2 (by decide)⟩

/-! ## Pending operators -/

theorem TopOK.Apply {current : Node} (h : TopOK current) (x : Node)
    (hx : x.hasPending = false) : (current.Apply x).hasPending = false := by
  cases current with
  | EmptyNode => exact hx
  | ValueNode v => simp [Node.Apply, Node.hasPending, hx]
  | CompleteMatchNode v => simp [Node.Apply, Node.hasPending, hx]
  | AndNode l r =>
    cases r with
    | none =>
      rcases h with h | ⟨l2, hl2, h | h⟩
      · simp [Node.hasPending] at h
      · injection h with h1 _
        subst h1
        simp [Node.Apply, Node.hasPending, hl2, hx]
      · cases h
    | some r =>
      rcases h with h | ⟨l2, hl2, h | h⟩
      · simp only [Node.hasPending, Bool.or_eq_false_iff] at h
        simp [Node.Apply, Node.hasPending, h.1, h.2, hx]
      · cases h
      · cases h
  | OrNode l r =>
    cases r with
    | none =>
      rcases h with h | ⟨l2, hl2, h | h⟩
      · simp [Node.hasPending] at h
      · cases h
      · injection h with h1 _
        subst h1
        simp [Node.Apply, Node.hasPending, hl2, hx]
    | some r =>
      rcases h with h | ⟨l2, hl2, h | h⟩
      · simp only [Node.hasPending, Bool.or_eq_false_iff] at h
        simp [Node.Apply, Node.hasPending, h.1, hx]
      · cases h
      · cases h
  | KeyNode k v => simp [Node.Apply, Node.hasPending, hx]

theorem spaceChainText_cons (v : String) (vs : List String) :
    (spaceChainText (v :: vs)).toList = ' ' :: (v.toList ++ (spaceChainText vs).toList) := by
  simp [spaceChainText, String.toList]

theorem flush_scanWith_spaceChain (ws : List String) :
    ∀ (current : Node) (w : String), PlainWord w → (∀ v ∈ ws, PlainWord v) →
      noKeywordPair (w :: ws) = true →
      (current.hasPending = false ∨ (TopOK current ∧ NotKeyword w)) →
      (flush (scanWith Parse 0 (spaceChainText ws).toList current w.toList false 0)).1.hasPending
        = false := by
  induction ws with
  | nil =>
    intro current w hw _ _ hcur
    have htop : TopOK current := hcur.elim Or.inl (fun h => h.1)
    show (flush (scanWith Parse 0 [] current w.toList false 0)).1.hasPending = false
    rw [scanWith_nil, flush_token _ _ hw.1]
    exact htop.Apply _ rfl
  | cons v vs ih =>
    intro current w hw hws hpair hcur
    have hv : PlainWord v := hws v (List.mem_cons_self _ _)
    have hvs : ∀ u ∈ vs, PlainWord u := fun u hu => hws u (List.mem_cons_of_mem _ hu)
    simp only [noKeywordPair, Bool.and_eq_true, Bool.or_eq_true, decide_eq_true_eq] at hpair
    obtain ⟨hwv, htail⟩ := hpair
    rw [spaceChainText_cons]
    by_cases hand : w = "and"
    · subst hand
      have hset : current.hasPending = false :=
        hcur.elim id (fun h => absurd rfl h.2.1)
      have hkv : NotKeyword v := hwv.elim (fun h => absurd rfl h.1) id
      show (flush (scanWith Parse 0 (' ' :: (v.toList ++ (spaceChainText vs).toList))
        current ['a', 'n', 'd'] false 0)).1.hasPending = false
      rw [scanWith_space_and, scanWith_ordinaries Parse v.toList hv.ordinary,
        List.nil_append]
      exact ih _ v hv hvs htail (Or.inr ⟨Or.inr ⟨current, hset, Or.inl rfl⟩, hkv⟩)
    · by_cases hor : w = "or"
      · subst hor
        have hset : current.hasPending = false :=
          hcur.elim id (fun h => absurd rfl h.2.2)
        have hkv : NotKeyword v := hwv.elim (fun h => absurd rfl h.2) id
        show (flush (scanWith Parse 0 (' ' :: (v.toList ++ (spaceChainText vs).toList))
          current ['o', 'r'] false 0)).1.hasPending = false
        rw [scanWith_space_or, scanWith_ordinaries Parse v.toList hv.ordinary,
          List.nil_append]
        exact ih _ v hv hvs htail (Or.inr ⟨Or.inr ⟨current, hset, Or.inr rfl⟩, hkv⟩)
      · have htop : TopOK current := hcur.elim Or.inl (fun h => h.1)
        rw [scanWith_space Parse _ current w.toList hor hand,
          scanWith_ordinaries Parse v.toList hv.ordinary, List.nil_append]
        refine ih _ v hv hvs htail (Or.inl ?_)
        show (current.Apply (Parse w).1).hasPending = false
        rw [Parse_PlainWord w hw]
        exact htop.Apply _ rfl

theorem spaceChainText_getLast (ws : List String) (hws : ∀ v ∈ ws, PlainWord v) :
    ∀ (pre : List Char), pre ≠ [] → (∀ c, pre.getLast? = some c → isSpace c = false) →
      ∀ c, (pre ++ (spaceChainText ws).toList).getLast? = some c → isSpace c = false := by
  induction ws with
  | nil =>
    intro pre _ hlast c hc
    have : (spaceChainText []).toList = [] := rfl
    rw [this, List.append_nil] at hc
    exact hlast c hc
  | cons v vs ih =>
    intro pre _ _ c hc
    have hv : PlainWord v := hws v (List.mem_cons_self _ _)
    rw [spaceChainText_cons] at hc
    have hre : pre ++ ' ' :: (v.toList ++ (spaceChainText vs).toList) =
        (pre ++ ' ' :: v.toList) ++ (spaceChainText vs).toList := by simp
    rw [hre] at hc
    refine ih (fun u hu => hws u (List.mem_cons_of_mem _ hu)) (pre ++ ' ' :: v.toList)
      (by simp) ?_ c hc
    intro d hd
    rw [← List.singleton_append, ← List.append_assoc,
      List.getLast?_append_of_ne_nil _ hv.1] at hd
    exact (hv.2 d (List.mem_of_mem_getLast? hd)).1

/-- Plain words joined by single spaces, keywords among them but none directly after
another: the tree that `Parse` returns holds no And node and no Or node whose right side
is absent. -/
theorem Parse_words_no_pending (w1 : String) (ws : List String) (h1 : PlainWord w1)
    (hws : ∀ v ∈ ws, PlainWord v) (hpair : noKeywordPair (w1 :: ws) = true) :
    (Parse (w1 ++ spaceChainText ws)).1.hasPending = false := by
  rw [Parse_eq]
  have htext : (w1 ++ spaceChainText ws).toList = w1.toList ++ (spaceChainText ws).toList := by
    simp [String.toList]
  rw [htext, TrimSpace_eq_self]
  · rw [scanWith_ordinaries Parse w1.toList h1.ordinary, List.nil_append]
    exact flush_scanWith_spaceChain ws .EmptyNode w1 h1 hws hpair (Or.inl rfl)
  · intro c hc
    rw [List.head?_append_of_ne_nil _ h1.1] at hc
    exact (h1.2 c (List.mem_of_mem_head? hc)).1
  · exact spaceChainText_getLast ws hws w1.toList h1.1
      (fun c hc => (h1.2 c (List.mem_of_mem_getLast? hc)).1)

/-- C12, the claim refuted: for the input a and ( the tree returned is And(Value a, nil),
an And node whose right side is absent; for a and and b the absent right side lies one
level down, in And(And(Value a, nil), Value b). -/
theorem Parse_pending_counterexample :
    Parse "a and (" = (.AndNode (.ValueNode "a") none, none) ∧
      (Parse "a and (").1.hasPending = true ∧
      (Parse "a and and b").1.hasPending = true :=
  ⟨by rfl, by rfl, by rfl⟩

/-! ## Termination -/

/-- The loop consults the recursive parser on strings shorter than the bound only. -/
theorem scanWith_congr (N : Nat) (P Q : String → Node × Option GoError)
    (h : ∀ s, s.length < N → P s = Q s) :
    ∀ (rest : List Char) (skip : Nat) (current : Node) (token : List Char) (hasQuota : Bool)
      (level : Int), token.length + rest.length ≤ N →
      scanWith P skip rest current token hasQuota level =
        scanWith Q skip rest current token hasQuota level := by
  intro rest
  induction rest with
  | nil =>
    intro skip current token hasQuota level _
    rw [scanWith_nil, scanWith_nil]
  | cons r rest ih =>
    intro skip current token hasQuota level hb
    have hb1 : token.length + rest.length + 1 ≤ N := by
      simp only [List.length_cons] at hb
      omega
    cases skip with
    | succ k =>
      simp only [scanWith]
      exact ih _ _ _ _ _ (by omega)
    | zero =>
      have htok : P (String.mk token) = Q (String.mk token) :=
        h _ (by simp only [String.length]; omega)
      have hq : P (readUntilFinishLevel rest).1 = Q (readUntilFinishLevel rest).1 :=
        h _ (by have := readUntilFinishLevel_length rest; omega)
      simp only [scanWith, htok, hq]
      split_ifs <;> apply ih <;>
        first
          | omega
          | (simp only [List.length_append, List.length_cons, List.length_nil]; omega)

theorem Parse_unique (F : String → Node × Option GoError)
    (hF : ∀ q, F q = flush (scanWith F 0 (TrimSpace q.toList) .EmptyNode [] false 0)) :
    ∀ (n : Nat) (q : String), q.length = n → F q = Parse q := by
  intro n
  induction n using Nat.strong_induction_on with
  | _ n ih =>
    intro q hq
    rw [hF q, Parse_eq q]
    congr 1
    apply scanWith_congr q.length F Parse
    · intro s hs
      exact ih s.length (by omega) s rfl
    · have := TrimSpace_length q.toList
      simp only [String.length, String.toList, List.length_nil] at *
      omega

/-- C19: `Parse` is a total function by recursion on the length of its input.  It
satisfies the body of the Go function, with itself in the place of the three recursive
calls; the loop, which passes over at least one rune per iteration, consults the
recursive calls on strings strictly shorter than the input only; and no other function
satisfies the body. -/
theorem Parse_total :
    (∀ q, Parse q = flush (scanWith Parse 0 (TrimSpace q.toList) .EmptyNode [] false 0)) ∧
    (∀ (P Q : String → Node × Option GoError) (q : String),
      (∀ s, s.length < q.length → P s = Q s) →
      flush (scanWith P 0 (TrimSpace q.toList) .EmptyNode [] false 0) =
        flush (scanWith Q 0 (TrimSpace q.toList) .EmptyNode [] false 0)) ∧
    (∀ F : String → Node × Option GoError,
      (∀ q, F q = flush (scanWith F 0 (TrimSpace q.toList) .EmptyNode [] false 0)) →
      ∀ q, F q = Parse q) := by
  refine ⟨Parse_eq, ?_, ?_⟩
  · intro P Q q h
    congr 1
    apply scanWith_congr q.length P Q h
    have := TrimSpace_length q.toList
    simp only [String.length, String.toList, List.length_nil] at *
    omega
  · intro F hF q
    exact Parse_unique F hF q.length q rfl

/-! ## Index bounds -/

/-- The result of `groupedLoop` from the index at which its loop returns. -/
theorem groupedLoop_eq_groupedHit (runes rest : List Char) (i : Nat) (level : Int) :
    groupedLoop runes rest i level =
      match groupedHit rest i level with
      | some k => (String.mk ((runes.take (k - 1)).drop 1), k)
      | none => ("", 0) := by
  induction rest generalizing i level with
  | nil => simp [groupedLoop, groupedHit]
  | cons r rest ih =>
    unfold groupedLoop groupedHit
    have hne : ¬ ((')' : Char) = '(') := by decide
    by_cases h1 : r = '('
    · simp only [h1, if_true]
      exact ih _ _
    · by_cases h2 : r = ')'
      · by_cases h3 : level - 1 < 0
        · simp only [h1, h2, h3, hne, if_true, if_false]
        · simp only [h1, h2, h3, hne, if_true, if_false]
          exact ih _ _
      · simp only [h1, h2, if_false]
        exact ih _ _

/-- A return inside the loop of `grouped` happens at an index of the text that is not
before the index the loop is at. -/
theorem groupedHit_bounds (rest : List Char) :
    ∀ (i : Nat) (level : Int) (k : Nat), groupedHit rest i level = some k →
      i ≤ k ∧ k < i + rest.length := by
  induction rest with
  | nil => intro i level k h; simp [groupedHit] at h
  | cons r rest ih =>
    intro i level k h
    unfold groupedHit at h
    simp only [List.length_cons]
    have hne : ¬ ((')' : Char) = '(') := by decide
    by_cases h1 : r = '('
    · simp only [h1, if_true] at h
      have := ih _ _ _ h
      omega
    · by_cases h2 : r = ')'
      · by_cases h3 : level - 1 < 0
        · simp only [h1, h2, h3, hne, if_true, if_false, Option.some.injEq] at h
          omega
        · simp only [h1, h2, h3, hne, if_true, if_false] at h
          have := ih _ _ _ h
          omega
      · simp only [h1, h2, if_false] at h
        have := ih _ _ _ h
        omega

/-- With one group open, the return inside the loop of `grouped` needs two closing
parentheses, so it happens after the index the loop is at. -/
theorem groupedHit_open (rest : List Char) :
    ∀ (i : Nat) (level : Int) (k : Nat), 1 ≤ level → groupedHit rest i level = some k →
      i + 1 ≤ k := by
  induction rest with
  | nil => intro i level k _ h; simp [groupedHit] at h
  | cons r rest ih =>
    intro i level k hl h
    unfold groupedHit at h
    have hne : ¬ ((')' : Char) = '(') := by decide
    by_cases h1 : r = '('
    · simp only [h1, if_true] at h
      have := ih _ _ _ (by omega) h
      omega
    · by_cases h2 : r = ')'
      · have h3 : ¬ (level - 1 < 0) := by omega
        simp only [h1, h2, h3, hne, if_true, if_false] at h
        have := (groupedHit_bounds rest _ _ _ h).1
        omega
      · simp only [h1, h2, if_false] at h
        have := ih _ _ _ hl h
        omega

theorem othersLoop_count (runes rest : List Char) (i : Nat) :
    (othersLoop runes rest i).2 ≤ i + rest.length := by
  induction rest generalizing i with
  | nil => simp [othersLoop]
  | cons r rest ih =>
    unfold othersLoop
    simp only [List.length_cons]
    split_ifs
    · simp only
      omega
    · have := ih (i + 1)
      omega

/-- C20: no slice of the value-extent helper or of the loop of `Parse` is out of range.
When the loop of `grouped`, run on a text that starts with an opening parenthesis,
returns at index k, then 2 ≤ k and k is an index of the text, so the bounds 1 and k - 1 of
the slice are in order and within the text, and the helper returns that slice and k.  At a
colon at index i the text from i + 1 on is a slice of the runes.  The count n that the
helper returns for that text is at most its length, so i + n is at most the last index of
the runes. -/
theorem slices_in_range (rest : List Char) :
    (∀ k, groupedHit ('(' :: rest) 0 0 = some k →
      (2 ≤ k ∧ k < ('(' :: rest).length) ∧
        readUntilFinishLevel ('(' :: rest) =
          (String.mk ((('(' :: rest).take (k - 1)).drop 1), k)) ∧
    (∀ pre : List Char, (pre ++ ':' :: rest).drop (pre.length + 1) = rest ∧
      pre.length + 1 ≤ (pre ++ ':' :: rest).length) ∧
    (readUntilFinishLevel rest).2 ≤ rest.length := by
  refine ⟨?_, ?_, ?_⟩
  · intro k hk
    have hloop : readUntilFinishLevel ('(' :: rest) =
        groupedLoop ('(' :: rest) ('(' :: rest) 0 0 := rfl
    refine ⟨?_, ?_⟩
    · have hb := groupedHit_bounds ('(' :: rest) 0 0 k hk
      have hstep : groupedHit ('(' :: rest) 0 0 = groupedHit rest 1 1 := by
        simp [groupedHit]
      rw [hstep] at hk
      have := groupedHit_open rest 1 1 k (le_refl _) hk
      omega
    · rw [hloop, groupedLoop_eq_groupedHit, hk]
  · intro pre
    constructor
    · rw [List.drop_append_eq_append_drop]
      simp
    · simp
  · unfold readUntilFinishLevel
    split
    · rename_i tail
      rw [groupedLoop_eq_groupedHit]
      cases hk : groupedHit ('(' :: tail) 0 0 with
      | none => simp
      | some k =>
        have := groupedHit_bounds ('(' :: tail) 0 0 k hk
        simp only
        omega
    · have := othersLoop_count rest rest 0
      omega

theorem slices_in_range_witness :
    groupedHit ('(' :: "a b)) c".toList) 0 0 = some 5 ∧
      (2 ≤ 5 ∧ 5 < ('(' :: "a b)) c".toList).length) ∧
      readUntilFinishLevel ('(' :: "a b)) c".toList) = ("a b", 5) :=
  ⟨by rfl, (slices_in_range "a b)) c".toList).1 5 (by rfl)⟩

/-! ## Well-formed queries: parentheses -/

theorem NoUnmatched.append {xs ys : List Char} (hx : NoUnmatched xs)
    (hxe : xs.count '(' = xs.count ')') (hy : NoUnmatched ys) : NoUnmatched (xs ++ ys) := by
  intro k hk
  rw [List.take_append_eq_append_take, List.count_append, List.count_append]
  by_cases hle : k ≤ xs.length
  · have h1 := hx k hle
    have h2 : k - xs.length = 0 := by omega
    rw [h2, List.take_zero]
    simp only [List.count_nil, Nat.add_zero]
    exact h1
  · have h1 : xs.take k = xs := List.take_of_length_le (by omega)
    have h2 := hy (k - xs.length) (by simp only [List.length_append] at hk; omega)
    rw [h1]
    omega

theorem NoUnmatched.of_no_paren {xs : List Char} (h : ∀ c ∈ xs, c ≠ '(' ∧ c ≠ ')') :
    NoUnmatched xs ∧ xs.count '(' = xs.count ')' := by
  have hc : ∀ ys : List Char, (∀ c ∈ ys, c ≠ '(' ∧ c ≠ ')') →
      ys.count '(' = 0 ∧ ys.count ')' = 0 := by
    intro ys hys
    exact ⟨List.count_eq_zero.mpr (fun hm => (hys _ hm).1 rfl),
      List.count_eq_zero.mpr (fun hm => (hys _ hm).2 rfl)⟩
  refine ⟨?_, by rw [(hc xs h).1, (hc xs h).2]⟩
  intro k _
  have := hc (xs.take k) (fun c hm => h c (List.mem_of_mem_take hm))
  omega

theorem NoUnmatched.group {e : List Char} (he : NoUnmatched e)
    (hee : e.count '(' = e.count ')') :
    NoUnmatched ('(' :: (e ++ [')'])) ∧
      ('(' :: (e ++ [')'])).count '(' = ('(' :: (e ++ [')'])).count ')' := by
  constructor
  · intro k hk
    cases k with
    | zero => simp
    | succ k =>
      rw [List.take_succ_cons, List.count_cons_self, List.count_cons_of_ne (by decide),
        List.take_append_eq_append_take, List.count_append, List.count_append]
      by_cases hle : k ≤ e.length
      · have h1 := he k hle
        have h2 : k - e.length = 0 := by omega
        rw [h2, List.take_zero]
        simp only [List.count_nil, Nat.add_zero]
        omega
      · have h1 : e.take k = e := List.take_of_length_le (by omega)
        have h2 : ([')'].take (k - e.length)).count ')' ≤ 1 := by
          refine le_trans (List.Sublist.count_le (List.take_sublist _ _) _) ?_
          simp
        rw [h1]
        omega
  · rw [List.count_cons_self, List.count_cons_of_ne (by decide), List.count_append,
      List.count_append]
    simp only [List.count_cons_self, List.count_nil]
    rw [List.count_cons_of_ne (by decide)]
    simp only [List.count_nil]
    omega

theorem groupedLoop_none (runes : List Char) (rest : List Char) :
    ∀ (i : Nat) (level : Int),
      (∀ k ≤ rest.length,
        0 ≤ level + ((rest.take k).count '(' : Int) - ((rest.take k).count ')' : Int)) →
      groupedLoop runes rest i level = ("", 0) := by
  induction rest with
  | nil => intro i level _; rfl
  | cons r rest ih =>
    intro i level h
    have hne : ¬ ((')' : Char) = '(') := by decide
    have hk : ∀ k ≤ rest.length, 0 ≤ level + (((r :: rest).take (k + 1)).count '(' : Int) -
        (((r :: rest).take (k + 1)).count ')' : Int) :=
      fun k hk => h (k + 1) (by simpa using hk)
    unfold groupedLoop
    by_cases h1 : r = '('
    · simp only [h1, if_true]
      apply ih
      intro k hk'
      have := hk k hk'
      rw [h1, List.take_succ_cons, List.count_cons_self,
        List.count_cons_of_ne (by decide)] at this
      push_cast at this
      omega
    · by_cases h2 : r = ')'
      · have h3 : ¬ (level - 1 < 0) := by
          have := h 1 (by simp)
          rw [h2] at this
          simp only [List.take_succ_cons, List.take_zero, List.count_cons_self,
            List.count_nil] at this
          rw [List.count_cons_of_ne (by decide)] at this
          simp only [List.count_nil] at this
          push_cast at this
          omega
        simp only [h1, h2, h3, hne, if_true, if_false]
        apply ih
        intro k hk'
        have := hk k hk'
        rw [h2, List.take_succ_cons, List.count_cons_self,
          List.count_cons_of_ne (by decide)] at this
        push_cast at this
        omega
      · simp only [h1, h2, if_false]
        apply ih
        intro k hk'
        have := hk k hk'
        rw [List.take_succ_cons, List.count_cons_of_ne (Ne.symm h1),
          List.count_cons_of_ne (Ne.symm h2)] at this
        exact this

/-- On runes that close no group they did not open, the value-extent helper finds no
return point in its grouped branch. -/
theorem readUntilFinishLevel_group_none (rest : List Char)
    (h : NoUnmatched ('(' :: rest)) : readUntilFinishLevel ('(' :: rest) = ("", 0) := by
  show groupedLoop ('(' :: rest) ('(' :: rest) 0 0 = ("", 0)
  apply groupedLoop_none
  intro k hk
  have := h k hk
  omega

theorem scanWith_skip (P : String → Node × Option GoError) (pre : List Char) :
    ∀ (rest : List Char) (current : Node) (token : List Char) (hasQuota : Bool)
      (level : Int),
      scanWith P pre.length (pre ++ rest) current token hasQuota level =
        scanWith P 0 rest current token hasQuota level := by
  induction pre with
  | nil => intro rest current token hasQuota level; rfl
  | cons c pre ih =>
    intro rest current token hasQuota level
    simp only [List.length_cons, List.cons_append, scanWith]
    exact ih _ _ _ _ _

/-- Runes that open and close their groups in order: the list form of `Balanced`. -/
theorem NoUnmatched.append_both {xs ys : List Char}
    (hx : NoUnmatched xs ∧ xs.count '(' = xs.count ')')
    (hy : NoUnmatched ys ∧ ys.count '(' = ys.count ')') :
    NoUnmatched (xs ++ ys) ∧ (xs ++ ys).count '(' = (xs ++ ys).count ')' := by
  refine ⟨hx.1.append hx.2 hy.1, ?_⟩
  rw [List.count_append, List.count_append, hx.2, hy.2]

theorem PlainWord.no_paren {w : String} (hw : PlainWord w) :
    ∀ c ∈ w.toList, c ≠ '(' ∧ c ≠ ')' :=
  fun c hc => ⟨(hw.2 c hc).2.2.2.1, (hw.2 c hc).2.2.2.2⟩

theorem PlainPhrase.phrase_no_paren {p : String} (hp : PlainPhrase p) :
    ∀ c ∈ p.toList, c ≠ '(' ∧ c ≠ ')' :=
  fun c hc => ⟨(hp c hc).2.2.1, (hp c hc).2.2.2⟩

theorem QTerm.text_toList (t : QTerm) :
    t.text.toList =
      match t with
      | .word w => w.toList
      | .phrase p => '"' :: (p.toList ++ ['"'])
      | .group e => '(' :: (e.toList ++ [')'])
      | .field k v => k.toList ++ ':' :: v.toList
      | .fieldPhrase k p => k.toList ++ ':' :: '"' :: (p.toList ++ ['"'])
      | .fieldGroup k e => k.toList ++ ':' :: '(' :: (e.toList ++ [')']) := by
  cases t <;> simp [QTerm.text, String.toList]

theorem QTerm.text_balanced (inner : String → Prop) (hin : ∀ e, inner e → Balanced e)
    (t : QTerm) (ht : t.OK inner) :
    NoUnmatched t.text.toList ∧ t.text.toList.count '(' = t.text.toList.count ')' := by
  rw [t.text_toList]
  have hq : NoUnmatched ['"'] ∧ ['"'].count '(' = ['"'].count ')' :=
    NoUnmatched.of_no_paren (by decide)
  have hcolon : NoUnmatched [':'] ∧ [':'].count '(' = [':'].count ')' :=
    NoUnmatched.of_no_paren (by decide)
  cases t with
  | word w => exact NoUnmatched.of_no_paren ht.1.no_paren
  | phrase p =>
    exact NoUnmatched.append_both hq
      (NoUnmatched.append_both (NoUnmatched.of_no_paren (PlainPhrase.phrase_no_paren ht)) hq)
  | group e =>
    have he := hin e ht
    exact NoUnmatched.group he.1 he.2
  | field k v =>
    exact NoUnmatched.append_both (NoUnmatched.of_no_paren ht.1.no_paren)
      (NoUnmatched.append_both hcolon (NoUnmatched.of_no_paren ht.2.no_paren))
  | fieldPhrase k p =>
    exact NoUnmatched.append_both (NoUnmatched.of_no_paren ht.1.no_paren)
      (NoUnmatched.append_both hcolon (NoUnmatched.append_both hq
        (NoUnmatched.append_both (NoUnmatched.of_no_paren (PlainPhrase.phrase_no_paren ht.2.1)) hq)))
  | fieldGroup k e =>
    have he := hin e ht.2
    exact NoUnmatched.append_both (NoUnmatched.of_no_paren ht.1.no_paren)
      (NoUnmatched.append_both hcolon (NoUnmatched.group he.1 he.2))

theorem Sep.sep_balanced (s : Sep) :
    NoUnmatched s.text.toList ∧ s.text.toList.count '(' = s.text.toList.count ')' := by
  cases s <;> exact NoUnmatched.of_no_paren (by decide)

theorem chainText_cons (st : Sep × QTerm) (rest : List (Sep × QTerm)) :
    (chainText (st :: rest)).toList =
      st.1.text.toList ++ (st.2.text.toList ++ (chainText rest).toList) := by
  simp [chainText, String.toList]

theorem chainText_balanced (inner : String → Prop) (hin : ∀ e, inner e → Balanced e)
    (rest : List (Sep × QTerm)) (hrest : ∀ st ∈ rest, st.2.OK inner) :
    NoUnmatched (chainText rest).toList ∧
      (chainText rest).toList.count '(' = (chainText rest).toList.count ')' := by
  induction rest with
  | nil => exact NoUnmatched.of_no_paren (by simp [chainText, String.toList])
  | cons st rest ih =>
    rw [chainText_cons]
    exact NoUnmatched.append_both st.1.sep_balanced
      (NoUnmatched.append_both (QTerm.text_balanced inner hin st.2 (hrest st (List.mem_cons_self _ _)))
        (ih (fun x hx => hrest x (List.mem_cons_of_mem _ hx))))

theorem WellFormed.is_balanced : ∀ (n : Nat) (q : String), WellFormed n q → Balanced q := by
  intro n
  induction n with
  | zero => intro q h; exact absurd h (by simp [WellFormed])
  | succ n ih =>
    intro q h
    obtain ⟨first, rest, hq, hfirst, hrest⟩ := h
    have htext : q.toList = first.text.toList ++ (chainText rest).toList := by
      rw [hq]
      simp [String.toList]
    have := NoUnmatched.append_both (QTerm.text_balanced _ ih first hfirst)
      (chainText_balanced _ ih rest hrest)
    rw [← htext] at this
    exact this

/-! ## Well-formed queries: the loop over a term and a separator -/

theorem TopOK.of_settled {current : Node} (h : current.hasPending = false) : TopOK current :=
  Or.inl h

theorem AfterTerm.applied {current : Node} {token : List Char} (h : AfterTerm current token) :
    String.mk token ≠ "or" ∧ String.mk token ≠ "and" ∧
      (current.Apply (Parse (String.mk token)).1).hasPending = false := by
  rcases h with ⟨hc, rfl⟩ | ⟨hc, w, hw, hk, rfl⟩
  · refine ⟨by decide, by decide, ?_⟩
    show (current.Apply (Parse "").1).hasPending = false
    rw [Parse_empty]
    exact (TopOK.of_settled hc).Apply _ rfl
  · refine ⟨hk.2, hk.1, ?_⟩
    show (current.Apply (Parse w).1).hasPending = false
    rw [Parse_PlainWord w hw]
    exact hc.Apply _ rfl

/-- After a term, each of the three separators leaves a node that is settled or pending
at the root only, and an empty buffer. -/
theorem AfterTerm.sep {current : Node} {token : List Char} (h : AfterTerm current token)
    (s : Sep) (rest : List Char) :
    ∃ c, TopOK c ∧
      scanWith Parse 0 (s.text.toList ++ rest) current token false 0 =
        scanWith Parse 0 rest c [] false 0 := by
  obtain ⟨h1, h2, h3⟩ := h.applied
  cases s with
  | space =>
    refine ⟨_, TopOK.of_settled h3, ?_⟩
    show scanWith Parse 0 (' ' :: rest) current token false 0 = _
    rw [scanWith_space Parse rest current token h1 h2]
  | and =>
    refine ⟨.AndNode (current.Apply (Parse (String.mk token)).1) none,
      Or.inr ⟨_, h3, Or.inl rfl⟩, ?_⟩
    show scanWith Parse 0 (' ' :: (['a', 'n', 'd'] ++ ' ' :: rest)) current token false 0 = _
    rw [scanWith_space Parse _ current token h1 h2,
      scanWith_ordinaries Parse ['a', 'n', 'd'] (by decide), List.nil_append,
      scanWith_space_and]
  | or =>
    refine ⟨.OrNode (current.Apply (Parse (String.mk token)).1) none,
      Or.inr ⟨_, h3, Or.inr rfl⟩, ?_⟩
    show scanWith Parse 0 (' ' :: (['o', 'r'] ++ ' ' :: rest)) current token false 0 = _
    rw [scanWith_space Parse _ current token h1 h2,
      scanWith_ordinaries Parse ['o', 'r'] (by decide), List.nil_append,
      scanWith_space_or]

/-- After a term that ends the input, the flush leaves nothing pending. -/
theorem AfterTerm.flush {current : Node} {token : List Char} (h : AfterTerm current token) :
    (flush (scanWith Parse 0 [] current token false 0)).1.hasPending = false := by
  rw [scanWith_nil]
  rcases h with ⟨hc, rfl⟩ | ⟨hc, w, hw, _, rfl⟩
  · rw [flush_nil]
    exact hc
  · rw [flush_token _ _ hw.1]
    exact hc.Apply _ rfl

/-- After a field whose value the helper has delimited, the loop resumes behind the first
space of the separator; the rest of the separator leaves a node that is settled or
pending at the root only. -/
theorem scanWith_sep_tail {current : Node} (h : current.hasPending = false) (s : Sep)
    (rest : List Char) :
    ∃ c, TopOK c ∧
      scanWith Parse 0 ((s.text.toList.drop 1) ++ rest) current [] false 0 =
        scanWith Parse 0 rest c [] false 0 := by
  cases s with
  | space => exact ⟨current, TopOK.of_settled h, rfl⟩
  | and =>
    refine ⟨.AndNode current none, Or.inr ⟨_, h, Or.inl rfl⟩, ?_⟩
    show scanWith Parse 0 (['a', 'n', 'd'] ++ ' ' :: rest) current [] false 0 = _
    rw [scanWith_ordinaries Parse ['a', 'n', 'd'] (by decide), List.nil_append,
      scanWith_space_and]
  | or =>
    refine ⟨.OrNode current none, Or.inr ⟨_, h, Or.inr rfl⟩, ?_⟩
    show scanWith Parse 0 (['o', 'r'] ++ ' ' :: rest) current [] false 0 = _
    rw [scanWith_ordinaries Parse ['o', 'r'] (by decide), List.nil_append,
      scanWith_space_or]

theorem Sep.sep_text_toList (s : Sep) : s.text.toList = ' ' :: s.text.toList.drop 1 := by
  cases s <;> rfl

/-- A group outside every other group: its text is buffered, parsed at the closing
parenthesis and applied. -/
theorem scanWith_balanced_group (P : String → Node × Option GoError) (e : String)
    (he : Balanced e) (rest : List Char) (current : Node) (hasQuota : Bool) :
    scanWith P 0 ('(' :: (e.toList ++ ')' :: rest)) current [] hasQuota 0 =
      scanWith P 0 rest (current.Apply (P e).1) [] hasQuota 0 := by
  have hlevel : ∀ k ≤ e.toList.length,
      1 ≤ (1 : Int) + ((e.toList.take k).count '(' : Int) -
        ((e.toList.take k).count ')' : Int) := by
    intro k hk
    have := he.1 k hk
    omega
  have hend : (1 : Int) + (e.toList.count '(' : Int) - (e.toList.count ')' : Int) = 1 := by
    have := he.2
    omega
  rw [scanWith_open_top, scanWith_group P e.toList _ _ _ _ 1 hlevel, hend,
    scanWith_close_group, List.nil_append]
  rfl

theorem Parse_phrase_text (p : String) (hp : PlainPhrase p) :
    Parse (String.mk ('"' :: (p.toList ++ ['"']))) = (.CompleteMatchNode p, none) := by
  rw [Parse_eq]
  show flush (scanWith Parse 0 (TrimSpace ('"' :: (p.toList ++ ['"']))) _ _ _ _) = _
  rw [TrimSpace_eq_self]
  · rw [scanWith_phrase Parse p.toList hp, scanWith_nil, flush_nil]
    rfl
  · intro c hc
    simp only [List.head?_cons, Option.some.injEq] at hc
    subst hc
    decide
  · intro c hc
    rw [← List.cons_append, List.getLast?_append_of_ne_nil _ (List.cons_ne_nil _ _)] at hc
    simp only [List.getLast?_singleton, Option.some.injEq] at hc
    subst hc
    decide

/-- The helper on a value that a space follows: the value and the count that covers the
value and the space. -/
theorem readUntilFinishLevel_value (v rest : List Char) (hv : ∀ d ∈ v, d ≠ ' ' ∧ d ≠ ')')
    (hhead : ∀ c, v.head? = some c → c ≠ '(') (hne : v ≠ []) :
    readUntilFinishLevel (v ++ ' ' :: rest) = (String.mk v, v.length + 1) := by
  have h0 : (v ++ ' ' :: rest).head? ≠ some '(' := by
    rw [List.head?_append_of_ne_nil _ hne]
    intro h
    exact hhead _ h rfl
  rw [readUntilFinishLevel_eq_others _ h0,
    othersLoop_boundary (v ++ ' ' :: rest) v rest ' ' hv (Or.inl rfl) 0]
  simp

/-- A field whose value a space follows: the value is parsed on its own, the Key node is
applied, and the loop resumes behind the space. -/
theorem scanWith_field_value (k : String) (hk : PlainWord k) (v rest : List Char)
    (hv : ∀ d ∈ v, d ≠ ' ' ∧ d ≠ ')') (hhead : ∀ c, v.head? = some c → c ≠ '(')
    (hne : v ≠ []) (current : Node) :
    scanWith Parse 0 (k.toList ++ ':' :: (v ++ ' ' :: rest)) current [] false 0 =
      scanWith Parse 0 rest (current.Apply (.KeyNode k (Parse (String.mk v)).1)) []
        false 0 := by
  rw [scanWith_ordinaries Parse k.toList hk.ordinary, List.nil_append, scanWith_colon,
    readUntilFinishLevel_value v rest hv hhead hne]
  have hsplit : v ++ ' ' :: rest = (v ++ [' ']) ++ rest := by simp
  have hlen : v.length + 1 = (v ++ [' ']).length := by simp
  show scanWith Parse (v.length + 1) (v ++ ' ' :: rest) _ [] false 0 = _
  rw [hsplit, hlen, scanWith_skip]
  rfl

theorem PlainWord.value {v : String} (hv : PlainWord v) :
    (∀ d ∈ v.toList, d ≠ ' ' ∧ d ≠ ')') ∧ (∀ c, v.toList.head? = some c → c ≠ '(') := by
  refine ⟨fun d hd => ⟨(hv.no_boundary d hd).1, (hv.no_boundary d hd).2.1⟩, ?_⟩
  intro c hc
  exact (hv.no_boundary c (List.mem_of_mem_head? hc)).2.2

theorem quoted_value (p : String) (hp : PlainPhrase p) (hsp : ' ' ∉ p.toList) :
    (∀ d ∈ '"' :: (p.toList ++ ['"']), d ≠ ' ' ∧ d ≠ ')' ∧ d ≠ '(') := by
  intro d hd
  simp only [List.mem_cons, List.mem_append, List.mem_singleton, List.not_mem_nil,
    or_false] at hd
  rcases hd with rfl | hd | rfl
  · decide
  · refine ⟨?_, (hp d hd).2.2.2, (hp d hd).2.2.1⟩
    rintro rfl
    exact hsp hd
  · decide

/-- A term and the separator after it, read from an empty buffer: the loop ends on a node
that is settled or pending at the root only, with the buffer empty again. -/
theorem scanWith_term_sep (inner : String → Prop)
    (hin : ∀ e, inner e → (Parse e).1.hasPending = false ∧ Balanced e)
    (t : QTerm) (ht : t.OK inner) (s : Sep) (current : Node) (hc : TopOK current)
    (rest : List Char) (hrest : NoUnmatched rest) :
    ∃ c, TopOK c ∧
      scanWith Parse 0 (t.text.toList ++ (s.text.toList ++ rest)) current [] false 0 =
        scanWith Parse 0 rest c [] false 0 := by
  have hsr : NoUnmatched (s.text.toList ++ rest) := s.sep_balanced.1.append s.sep_balanced.2 hrest
  rw [t.text_toList]
  cases t with
  | word w =>
    have hafter : AfterTerm current w.toList := Or.inr ⟨hc, w, ht.1, ht.2, rfl⟩
    obtain ⟨c, hc2, hscan⟩ := hafter.sep s rest
    refine ⟨c, hc2, ?_⟩
    show scanWith Parse 0 (w.toList ++ (s.text.toList ++ rest)) current [] false 0 = _
    rw [scanWith_ordinaries Parse w.toList ht.1.ordinary, List.nil_append, hscan]
  | phrase p =>
    have hafter : AfterTerm (current.Apply (.CompleteMatchNode p)) [] :=
      Or.inl ⟨hc.Apply _ rfl, rfl⟩
    obtain ⟨c, hc2, hscan⟩ := hafter.sep s rest
    refine ⟨c, hc2, ?_⟩
    show scanWith Parse 0 (('"' :: (p.toList ++ ['"'])) ++ (s.text.toList ++ rest))
      current [] false 0 = _
    have hshape : ('"' :: (p.toList ++ ['"'])) ++ (s.text.toList ++ rest) =
        '"' :: (p.toList ++ '"' :: (s.text.toList ++ rest)) := by simp
    rw [hshape, scanWith_phrase Parse p.toList ht, List.nil_append]
    exact hscan
  | group e =>
    have he := hin e ht
    have hafter : AfterTerm (current.Apply (Parse e).1) [] :=
      Or.inl ⟨hc.Apply _ he.1, rfl⟩
    obtain ⟨c, hc2, hscan⟩ := hafter.sep s rest
    refine ⟨c, hc2, ?_⟩
    show scanWith Parse 0 (('(' :: (e.toList ++ [')'])) ++ (s.text.toList ++ rest))
      current [] false 0 = _
    have hshape : ('(' :: (e.toList ++ [')'])) ++ (s.text.toList ++ rest) =
        '(' :: (e.toList ++ ')' :: (s.text.toList ++ rest)) := by simp
    rw [hshape, scanWith_balanced_group Parse e he.2, hscan]
  | field k v =>
    have hkey : (current.Apply (.KeyNode k (.ValueNode v))).hasPending = false :=
      hc.Apply _ rfl
    obtain ⟨c, hc2, hscan⟩ := scanWith_sep_tail hkey s rest
    refine ⟨c, hc2, ?_⟩
    show scanWith Parse 0 ((k.toList ++ ':' :: v.toList) ++ (s.text.toList ++ rest))
      current [] false 0 = _
    have hshape : (k.toList ++ ':' :: v.toList) ++ (s.text.toList ++ rest) =
        k.toList ++ ':' :: (v.toList ++ ' ' :: (s.text.toList.drop 1 ++ rest)) := by
      conv_lhs => rw [s.sep_text_toList]
      simp
    rw [hshape, scanWith_field_value k ht.1 v.toList _ ht.2.value.1 ht.2.value.2 ht.2.1]
    show scanWith Parse 0 _ (current.Apply (.KeyNode k (Parse v).1)) [] false 0 = _
    rw [Parse_PlainWord v ht.2, hscan]
  | fieldPhrase k p =>
    have hkey : (current.Apply (.KeyNode k (.CompleteMatchNode p))).hasPending = false :=
      hc.Apply _ rfl
    obtain ⟨c, hc2, hscan⟩ := scanWith_sep_tail hkey s rest
    refine ⟨c, hc2, ?_⟩
    show scanWith Parse 0
      ((k.toList ++ ':' :: '"' :: (p.toList ++ ['"'])) ++ (s.text.toList ++ rest))
      current [] false 0 = _
    have hshape : (k.toList ++ ':' :: '"' :: (p.toList ++ ['"'])) ++
        (s.text.toList ++ rest) =
        k.toList ++ ':' :: (('"' :: (p.toList ++ ['"'])) ++
          ' ' :: (s.text.toList.drop 1 ++ rest)) := by
      conv_lhs => rw [s.sep_text_toList]
      simp
    have hq := quoted_value p ht.2.1 ht.2.2
    rw [hshape, scanWith_field_value k ht.1 ('"' :: (p.toList ++ ['"'])) _
      (fun d hd => ⟨(hq d hd).1, (hq d hd).2.1⟩)
      (fun c hcc => by
        simp only [List.head?_cons, Option.some.injEq] at hcc
        subst hcc
        decide)
      (List.cons_ne_nil _ _), Parse_phrase_text p ht.2.1, hscan]
  | fieldGroup k e =>
    have he := hin e ht.2
    have hkey : (current.Apply (.KeyNode k .EmptyNode)).hasPending = false :=
      hc.Apply _ rfl
    have hafter : AfterTerm ((current.Apply (.KeyNode k .EmptyNode)).Apply (Parse e).1) [] :=
      Or.inl ⟨(TopOK.of_settled hkey).Apply _ he.1, rfl⟩
    obtain ⟨c, hc2, hscan⟩ := hafter.sep s rest
    refine ⟨c, hc2, ?_⟩
    show scanWith Parse 0
      ((k.toList ++ ':' :: '(' :: (e.toList ++ [')'])) ++ (s.text.toList ++ rest))
      current [] false 0 = _
    have hshape : (k.toList ++ ':' :: '(' :: (e.toList ++ [')'])) ++
        (s.text.toList ++ rest) =
        k.toList ++ ':' :: '(' :: (e.toList ++ ')' :: (s.text.toList ++ rest)) := by simp
    have hun : NoUnmatched ('(' :: (e.toList ++ ')' :: (s.text.toList ++ rest))) := by
      have := (NoUnmatched.group he.2.1 he.2.2).1.append (NoUnmatched.group he.2.1 he.2.2).2 hsr
      simpa using this
    rw [hshape, scanWith_ordinaries Parse k.toList ht.1.ordinary, List.nil_append,
      scanWith_colon, readUntilFinishLevel_group_none _ hun, Parse_empty]
    show scanWith Parse 0 ('(' :: (e.toList ++ ')' :: (s.text.toList ++ rest)))
      (current.Apply (.KeyNode k .EmptyNode)) [] false 0 = _
    rw [scanWith_balanced_group Parse e he.2, hscan]

/-- A term that ends the input, read from an empty buffer: the flush leaves nothing
pending. -/
theorem flush_scanWith_term_end (inner : String → Prop)
    (hin : ∀ e, inner e → (Parse e).1.hasPending = false ∧ Balanced e)
    (t : QTerm) (ht : t.OK inner) (current : Node) (hc : TopOK current) :
    (flush (scanWith Parse 0 t.text.toList current [] false 0)).1.hasPending = false := by
  rw [t.text_toList]
  cases t with
  | word w =>
    show (flush (scanWith Parse 0 w.toList current [] false 0)).1.hasPending = false
    rw [flush_scanWith_word Parse w.toList ht.1.ordinary ht.1.1]
    exact hc.Apply _ rfl
  | phrase p =>
    show (flush (scanWith Parse 0 ('"' :: (p.toList ++ ['"'])) current [] false 0)).1.hasPending
      = false
    rw [scanWith_phrase Parse p.toList ht, scanWith_nil, flush_nil]
    exact hc.Apply _ rfl
  | group e =>
    have he := hin e ht
    show (flush (scanWith Parse 0 ('(' :: (e.toList ++ [')'])) current [] false 0)).1.hasPending
      = false
    rw [scanWith_balanced_group Parse e he.2, scanWith_nil, flush_nil]
    exact hc.Apply _ he.1
  | field k v =>
    have hkey : (current.Apply (.KeyNode k .EmptyNode)).hasPending = false :=
      hc.Apply _ rfl
    show (flush (scanWith Parse 0 (k.toList ++ ':' :: v.toList) current [] false 0)).1.hasPending
      = false
    rw [scanWith_ordinaries Parse k.toList ht.1.ordinary, List.nil_append, scanWith_colon,
      readUntilFinishLevel_none v.toList ht.2.no_boundary, Parse_empty]
    show (flush (scanWith Parse 0 v.toList (current.Apply (.KeyNode k .EmptyNode)) []
      false 0)).1.hasPending = false
    rw [flush_scanWith_word Parse v.toList ht.2.ordinary ht.2.1]
    exact (TopOK.of_settled hkey).Apply _ rfl
  | fieldPhrase k p =>
    have hkey : (current.Apply (.KeyNode k .EmptyNode)).hasPending = false :=
      hc.Apply _ rfl
    show (flush (scanWith Parse 0 (k.toList ++ ':' :: '"' :: (p.toList ++ ['"'])) current []
      false 0)).1.hasPending = false
    rw [scanWith_ordinaries Parse k.toList ht.1.ordinary, List.nil_append, scanWith_colon,
      readUntilFinishLevel_none _ (quoted_value p ht.2.1 ht.2.2), Parse_empty]
    show (flush (scanWith Parse 0 ('"' :: (p.toList ++ ['"']))
      (current.Apply (.KeyNode k .EmptyNode)) [] false 0)).1.hasPending = false
    rw [scanWith_phrase Parse p.toList ht.2.1, scanWith_nil, flush_nil]
    exact (TopOK.of_settled hkey).Apply _ rfl
  | fieldGroup k e =>
    have he := hin e ht.2
    have hkey : (current.Apply (.KeyNode k .EmptyNode)).hasPending = false :=
      hc.Apply _ rfl
    show (flush (scanWith Parse 0 (k.toList ++ ':' :: '(' :: (e.toList ++ [')'])) current []
      false 0)).1.hasPending = false
    have hg : NoUnmatched ('(' :: (e.toList ++ [')'])) :=
      (@NoUnmatched.group e.toList he.2.1 he.2.2).1
    rw [scanWith_ordinaries Parse k.toList ht.1.ordinary, List.nil_append, scanWith_colon,
      readUntilFinishLevel_group_none _ hg, Parse_empty]
    show (flush (scanWith Parse 0 ('(' :: (e.toList ++ [')']))
      (current.Apply (.KeyNode k .EmptyNode)) [] false 0)).1.hasPending = false
    rw [scanWith_balanced_group Parse e he.2, scanWith_nil, flush_nil]
    exact (TopOK.of_settled hkey).Apply _ he.1

/-- A chain of terms read from an empty buffer up to the end of the input leaves nothing
pending. -/
theorem flush_scanWith_query (inner : String → Prop)
    (hin : ∀ e, inner e → (Parse e).1.hasPending = false ∧ Balanced e)
    (rest : List (Sep × QTerm)) :
    ∀ (first : QTerm) (current : Node), TopOK current → first.OK inner →
      (∀ st ∈ rest, st.2.OK inner) →
      (flush (scanWith Parse 0 (first.text.toList ++ (chainText rest).toList) current []
        false 0)).1.hasPending = false := by
  induction rest with
  | nil =>
    intro first current hc hfirst _
    have : (chainText []).toList = [] := rfl
    rw [this, List.append_nil]
    exact flush_scanWith_term_end inner hin first hfirst current hc
  | cons st rest ih =>
    intro first current hc hfirst hrest
    have hst := hrest st (List.mem_cons_self _ _)
    have htail : ∀ x ∈ rest, x.2.OK inner := fun x hx => hrest x (List.mem_cons_of_mem _ hx)
    have hbal : NoUnmatched (st.2.text.toList ++ (chainText rest).toList) :=
      (NoUnmatched.append_both (QTerm.text_balanced inner (fun e he => (hin e he).2) st.2 hst)
        (chainText_balanced inner (fun e he => (hin e he).2) rest htail)).1
    obtain ⟨c, hc2, hscan⟩ := scanWith_term_sep inner hin first hfirst st.1 current hc _ hbal
    rw [chainText_cons, hscan]
    exact ih st.2 c hc2 hst htail

theorem QTerm.edges (inner : String → Prop) (t : QTerm) (ht : t.OK inner) :
    t.text.toList ≠ [] ∧ (∀ c, t.text.toList.head? = some c → isSpace c = false) ∧
      (∀ c, t.text.toList.getLast? = some c → isSpace c = false) := by
  have hlast : ∀ (xs : List Char) (b c : Char), isSpace b = false →
      (xs ++ [b]).getLast? = some c → isSpace c = false := by
    intro xs b c hb h
    rw [List.getLast?_append_of_ne_nil _ (List.cons_ne_nil _ _)] at h
    simp only [List.getLast?_singleton, Option.some.injEq] at h
    subst h
    exact hb
  have hword : ∀ (w : String), PlainWord w → ∀ (xs : List Char) (c : Char),
      (xs ++ w.toList).getLast? = some c → isSpace c = false := by
    intro w hw xs c h
    rw [List.getLast?_append_of_ne_nil _ hw.1] at h
    exact (hw.2 c (List.mem_of_mem_getLast? h)).1
  have hkey : ∀ (k : String), PlainWord k → ∀ (xs : List Char) (c : Char),
      (k.toList ++ xs).head? = some c → isSpace c = false := by
    intro k hk xs c h
    rw [List.head?_append_of_ne_nil _ hk.1] at h
    exact (hk.2 c (List.mem_of_mem_head? h)).1
  have hfirst : ∀ (a : Char) (xs : List Char) (c : Char), isSpace a = false →
      (a :: xs).head? = some c → isSpace c = false := by
    intro a xs c ha h
    simp only [List.head?_cons, Option.some.injEq] at h
    subst h
    exact ha
  rw [t.text_toList]
  cases t with
  | word w =>
    exact ⟨ht.1.1, fun c h => (ht.1.2 c (List.mem_of_mem_head? h)).1,
      fun c h => (ht.1.2 c (List.mem_of_mem_getLast? h)).1⟩
  | phrase p =>
    exact ⟨List.cons_ne_nil _ _, fun c h => hfirst _ _ c (by decide) h,
      fun c h => hlast ('"' :: p.toList) '"' c (by decide) h⟩
  | group e =>
    exact ⟨List.cons_ne_nil _ _, fun c h => hfirst _ _ c (by decide) h,
      fun c h => hlast ('(' :: e.toList) ')' c (by decide) h⟩
  | field k v =>
    refine ⟨by simp, fun c h => hkey k ht.1 _ c h, fun c h => ?_⟩
    have hshape : k.toList ++ ':' :: v.toList = (k.toList ++ [':']) ++ v.toList := by simp
    exact hword v ht.2 (k.toList ++ [':']) c (by rw [← hshape]; exact h)
  | fieldPhrase k p =>
    refine ⟨by simp, fun c h => hkey k ht.1 _ c h, fun c h => ?_⟩
    have hshape : k.toList ++ ':' :: '"' :: (p.toList ++ ['"']) =
        (k.toList ++ ':' :: '"' :: p.toList) ++ ['"'] := by simp
    exact hlast _ '"' c (by decide) (by rw [← hshape]; exact h)
  | fieldGroup k e =>
    refine ⟨by simp, fun c h => hkey k ht.1 _ c h, fun c h => ?_⟩
    have hshape : k.toList ++ ':' :: '(' :: (e.toList ++ [')']) =
        (k.toList ++ ':' :: '(' :: e.toList) ++ [')'] := by simp
    exact hlast _ ')' c (by decide) (by rw [← hshape]; exact h)

theorem chainText_getLast (inner : String → Prop) (rest : List (Sep × QTerm))
    (hrest : ∀ st ∈ rest, st.2.OK inner) :
    ∀ (pre : List Char), pre ≠ [] → (∀ c, pre.getLast? = some c → isSpace c = false) →
      ∀ c, (pre ++ (chainText rest).toList).getLast? = some c → isSpace c = false := by
  induction rest with
  | nil =>
    intro pre _ hlast c hc
    have : (chainText []).toList = [] := rfl
    rw [this, List.append_nil] at hc
    exact hlast c hc
  | cons st rest ih =>
    intro pre _ _ c hc
    have hst := QTerm.edges inner st.2 (hrest st (List.mem_cons_self _ _))
    rw [chainText_cons] at hc
    have hre : pre ++ (st.1.text.toList ++ (st.2.text.toList ++ (chainText rest).toList)) =
        ((pre ++ st.1.text.toList) ++ st.2.text.toList) ++ (chainText rest).toList := by
      simp
    rw [hre] at hc
    refine ih (fun x hx => hrest x (List.mem_cons_of_mem _ hx)) _ ?_ ?_ c hc
    · intro h
      exact hst.1 (List.append_eq_nil.mp h).2
    · intro d hd
      rw [List.getLast?_append_of_ne_nil _ hst.1] at hd
      exact hst.2.2 d hd

/-- Terms joined by separators, the text of each group having a tree without pending
operator: the tree of the whole text has none. -/
theorem Parse_query_settled (inner : String → Prop)
    (hin : ∀ e, inner e → (Parse e).1.hasPending = false ∧ Balanced e)
    (first : QTerm) (rest : List (Sep × QTerm)) (hfirst : first.OK inner)
    (hrest : ∀ st ∈ rest, st.2.OK inner) :
    (Parse (first.text ++ chainText rest)).1.hasPending = false := by
  have htext : (first.text ++ chainText rest).toList =
      first.text.toList ++ (chainText rest).toList := by
    simp [String.toList]
  have hedges := QTerm.edges _ first hfirst
  rw [Parse_eq, htext, TrimSpace_eq_self]
  · exact flush_scanWith_query _ hin rest first .EmptyNode (Or.inl rfl) hfirst hrest
  · intro c hc
    rw [List.head?_append_of_ne_nil _ hedges.1] at hc
    exact hedges.2.1 c hc
  · exact chainText_getLast _ rest hrest _ hedges.1 hedges.2.2

theorem WellFormed.settled : ∀ (n : Nat) (q : String), WellFormed n q →
    (Parse q).1.hasPending = false := by
  intro n
  induction n with
  | zero => intro q h; exact absurd h (by simp [WellFormed])
  | succ n ih =>
    intro q h
    obtain ⟨first, rest, hq, hfirst, hrest⟩ := h
    rw [hq]
    exact Parse_query_settled _ (fun e he => ⟨ih e he, WellFormed.is_balanced n e he⟩)
      first rest hfirst hrest

/-! ## Well-formed queries have no pending operator -/

theorem canonicalQuery_wellFormed : WellFormed 3 canonicalQuery := by
  have h1 : WellFormed 1 "foobar and key2:\"value2\"" :=
    ⟨.word "foobar", [(.and, .fieldPhrase "key2" "value2")], by decide,
      (by decide : PlainWord "foobar" ∧ NotKeyword "foobar"),
      by
        intro st hst
        simp only [List.mem_singleton] at hst
        subst hst
        exact (by decide : PlainWord "key2" ∧ PlainPhrase "value2" ∧ ' ' ∉ "value2".toList)⟩
  have h2 : WellFormed 2 "key:value or (foobar and key2:\"value2\")" :=
    ⟨.field "key" "value", [(.or, .group "foobar and key2:\"value2\"")], by decide,
      (by decide : PlainWord "key" ∧ PlainWord "value"),
      by
        intro st hst
        simp only [List.mem_singleton] at hst
        subst hst
        exact h1⟩
  refine ⟨.word "foo",
    [(.and, .group "key:value or (foobar and key2:\"value2\")"),
      (.or, .field "key3" "value3"), (.space, .word "FOO")], by decide,
    (by decide : PlainWord "foo" ∧ NotKeyword "foo"), ?_⟩
  intro st hst
  simp only [List.mem_cons, List.mem_singleton, List.not_mem_nil, or_false] at hst
  rcases hst with rfl | rfl | rfl
  · exact h2
  · exact (by decide : PlainWord "key3" ∧ PlainWord "value3")
  · exact (by decide : PlainWord "FOO" ∧ NotKeyword "FOO")

/-- C12: the tree that `Parse` returns holds no And node and no Or node, at any depth,
whose right side is absent, for every query made of terms joined by one space, by " and "
or by " or ", where a term is a plain word other than "and" and "or", a quoted phrase, a
group (e) in parentheses, or a field k:v, k:"p" (p without a space) or k:(e), and where e
is a text with balanced parentheses whose own tree holds no such node.  Hence it holds
for every well-formed query, in which each e is a well-formed query again.  It also holds
for plain words joined by single spaces, keywords among them, when no keyword directly
follows another keyword. -/
theorem Parse_no_pending :
    (∀ (first : QTerm) (rest : List (Sep × QTerm)), first.OK SettledGroup →
      (∀ st ∈ rest, st.2.OK SettledGroup) →
      (Parse (first.text ++ chainText rest)).1.hasPending = false) ∧
    (∀ (n : Nat) (q : String), WellFormed n q → (Parse q).1.hasPending = false) ∧
    (∀ (w1 : String) (ws : List String), PlainWord w1 → (∀ v ∈ ws, PlainWord v) →
      noKeywordPair (w1 :: ws) = true →
      (Parse (w1 ++ spaceChainText ws)).1.hasPending = false) :=
  ⟨Parse_query_settled SettledGroup (fun _ he => ⟨he.2, he.1⟩), WellFormed.settled,
    Parse_words_no_pending⟩

theorem Parse_no_pending_witness :
    ((QTerm.word "a").OK SettledGroup ∧
      (∀ st ∈ [(Sep.space, QTerm.group "and b")], st.2.OK SettledGroup) ∧
      (Parse ((QTerm.word "a").text ++ chainText [(Sep.space, QTerm.group "and b")])).1.hasPending
        = false) ∧
    (WellFormed 3 canonicalQuery ∧ (Parse canonicalQuery).1.hasPending = false) ∧
    ((PlainWord "and" ∧ (∀ v ∈ ["a", "or", "b", "c", "and"], PlainWord v) ∧
        noKeywordPair ("and" :: ["a", "or", "b", "c", "and"]) = true) ∧
      (Parse ("and" ++ spaceChainText ["a", "or", "b", "c", "and"])).1.hasPending = false) := by
  have ha : (QTerm.word "a").OK SettledGroup :=
    (by decide : PlainWord "a" ∧ NotKeyword "a")
  have hg : ∀ st ∈ [(Sep.space, QTerm.group "and b")], st.2.OK SettledGroup := by
    intro st hst
    simp only [List.mem_singleton] at hst
    subst hst
    exact (⟨by decide, by rfl⟩ : SettledGroup "and b")
  exact ⟨⟨ha, hg, Parse_no_pending.1 _ _ ha hg⟩,
    ⟨canonicalQuery_wellFormed,
      Parse_no_pending.2.1 3 canonicalQuery canonicalQuery_wellFormed⟩,
    ⟨by decide, Parse_no_pending.2.2 "and" ["a", "or", "b", "c", "and"] (by decide)
      (by decide) (by decide)⟩⟩

end gparser
